import Mathlib

set_option maxRecDepth 100000

/-!
Verification development for the rac-syntax repository.

The repository ships two Prism grammar tables (packages/prism-rac/src/index.ts and
packages/prism-catala/src/index.ts) together with their vitest suites, plus a test
suite (src/unnamed/part_000) for a VS Code TextMate grammar whose JSON file is not
part of the sources.  The grammars are consumed by the Prism tokenizer
(Prism.tokenize / matchGrammar of prismjs 1.29, the library the packages import).

This file embeds
  * the ECMAScript regular-expression dialect actually used by the pattern tables
    (a backtracking matcher returning candidate match ends in JS preference order),
  * the Prism tokenizer algorithm (matchGrammar), including greedy full-text
    matching across node boundaries and the rematch pass,
  * the two grammar tables, transcribed rule by rule from the sources,
and proves the properties claimed about them.
-/

/-- JS character-class test for a decimal digit, used by the \d escape. -/
def isDigitCh (c : Char) : Bool :=
  48 ≤ c.toNat && c.toNat ≤ 57

/-- JS character-class test for a word character [A-Za-z0-9_], the \w escape. -/
def isWordCh (c : Char) : Bool :=
  (65 ≤ c.toNat && c.toNat ≤ 90) || (97 ≤ c.toNat && c.toNat ≤ 122) ||
    (48 ≤ c.toNat && c.toNat ≤ 57) || c.toNat == 95

/-- JS whitespace test for the \s escape (the ASCII part; all inputs in this
repository are ASCII). -/
def isSpaceCh (c : Char) : Bool :=
  c.toNat == 32 || c.toNat == 9 || c.toNat == 10 || c.toNat == 13 ||
    c.toNat == 11 || c.toNat == 12

/-- One item of a bracket character class. -/
inductive ClsItem where
  | single (c : Char)
  | range (lo hi : Char)
  | dEsc
  | wEsc
  | sEsc
  | nsEsc
deriving DecidableEq, Repr

/-- Whether a character satisfies one class item. -/
def ClsItem.test (it : ClsItem) (c : Char) : Bool :=
  match it with
  | .single d => c == d
  | .range lo hi => lo.toNat ≤ c.toNat && c.toNat ≤ hi.toNat
  | .dEsc => isDigitCh c
  | .wEsc => isWordCh c
  | .sEsc => isSpaceCh c
  | .nsEsc => !isSpaceCh c

/-- Abstract syntax of the regex dialect used by the grammar tables.
The multiline flag is attached to the anchors it affects, and the
ignore-case flag (used only by the YAML boolean rule) to the literals. -/
inductive Regex where
  | eps
  | ch (c : Char)
  | chi (c : Char)
  | cls (neg : Bool) (items : List ClsItem)
  | dot
  | cat (a b : Regex)
  | alt (a b : Regex)
  | star (r : Regex)
  | starL (r : Regex)
  | opt (r : Regex)
  | bol (m : Bool)
  | eol (m : Bool)
  | wb
  | look (r : Regex)
  | lookb (r : Regex)
deriving DecidableEq, Repr

/-- Lower-case folding on code points, for the /i flag. -/
def foldCase (n : Nat) : Nat :=
  if 65 ≤ n && n ≤ 90 then n + 32 else n

/-- Membership in a bracket class (or its negation). -/
def clsTest (neg : Bool) (items : List ClsItem) (c : Char) : Bool :=
  let hit := items.any (fun it => it.test c)
  if neg then !hit else hit

/-- Word-boundary test between positions i-1 and i of s. -/
def wordBoundary (s : List Char) (i : Nat) : Bool :=
  let l := match i with
    | 0 => false
    | j + 1 => match s.get? j with | some c => isWordCh c | none => false
  let r := match s.get? i with | some c => isWordCh c | none => false
  l != r

/-- Structural size of a regex, used to compute a sufficient fuel. -/
def Regex.size : Regex → Nat
  | .cat a b => a.size + b.size + 1
  | .alt a b => a.size + b.size + 1
  | .star r => r.size + 1
  | .starL r => r.size + 1
  | .opt r => r.size + 1
  | .look r => r.size + 1
  | .lookb r => r.size + 1
  | _ => 1

/-- All candidate end positions of a match of r starting at position i of s,
in the order JS backtracking explores them (the head is the end the engine
commits to).  The fuel bounds the depth of the exploration; along any path
every repetition step advances in s and every other step descends in r, so
(r.size + 2) * (s.length + 2) is always sufficient. -/
def cands (s : List Char) : Nat → Regex → Nat → List Nat
  | 0, _, _ => []
  | f + 1, r, i =>
    match r with
    | .eps => [i]
    | .ch c =>
        match s.get? i with
        | some d => if d == c then [i + 1] else []
        | none => []
    | .chi c =>
        match s.get? i with
        | some d => if foldCase d.toNat == foldCase c.toNat then [i + 1] else []
        | none => []
    | .cls neg items =>
        match s.get? i with
        | some d => if clsTest neg items d then [i + 1] else []
        | none => []
    | .dot =>
        match s.get? i with
        | some d => if d == '\n' then [] else [i + 1]
        | none => []
    | .cat a b => (cands s f a i).flatMap (fun m => cands s f b m)
    | .alt a b => cands s f a i ++ cands s f b i
    | .star r =>
        (((cands s f r i).filter (fun e => i < e)).flatMap
          (fun e => cands s f (.star r) e)) ++ [i]
    | .starL r =>
        i :: ((cands s f r i).filter (fun e => i < e)).flatMap
          (fun e => cands s f (.starL r) e)
    | .opt r => cands s f r i ++ [i]
    | .bol m =>
        if i == 0 then [i]
        else if m then
          match i, s.get? (i - 1) with
          | _ + 1, some c => if c == '\n' then [i] else []
          | _, _ => []
        else []
    | .eol m =>
        if i == s.length then [i]
        else if m then
          match s.get? i with
          | some c => if c == '\n' then [i] else []
          | none => []
        else []
    | .wb => if wordBoundary s i then [i] else []
    | .look r => if (cands s f r i).isEmpty then [] else [i]
    | .lookb r =>
        if (List.range (i + 1)).any (fun j => (cands s f r j).contains i)
        then [i] else []

/-- The end position the JS engine commits to for a match of r at i, if any. -/
def matchEndAt (r : Regex) (s : List Char) (i : Nat) : Option Nat :=
  (cands s ((r.size + 2) * (s.length + 2)) r i).head?

/-- JS RegExp.exec searching forward from a start position: the first
position at or after start where r matches, with the committed end. -/
def searchFrom (r : Regex) (s : List Char) (fuel : Nat) (i : Nat) :
    Option (Nat × Nat) :=
  match fuel with
  | 0 => none
  | f + 1 =>
      match matchEndAt r s i with
      | some e => some (i, e)
      | none => if i < s.length then searchFrom r s f (i + 1) else none

/-- exec with lastIndex = start (the form Prism's matchPattern uses). -/
def execFrom (r : Regex) (s : List Char) (start : Nat) : Option (Nat × Nat) :=
  searchFrom r s (s.length + 1 - start) start

/-- The slice s[i..j) as a list. -/
def sliceL (s : List Char) (i j : Nat) : List Char :=
  (s.drop i).take (j - i)

/-!
## The Prism tokenizer

Model of Prism.tokenize / matchGrammar (prismjs 1.29, the engine the packages
register their grammars with).  The token list is represented as a list of
items: an untokenized string chunk, a token with string content, or a token
with nested content (produced by rules carrying an inside sub-grammar).
The mutable `global` flag of each rule's regex object (the only part of a
grammar descriptor matchGrammar writes to: greedy rules get recompiled with
the g flag on first use) is kept in a parallel flag table so that tokenizing
returns the updated descriptor; `lastIndex` is set before every exec and
never read across calls, so it is not modelled.
-/

/-- A node of Prism's token list: an untokenized string, or a Token whose
content is a string or a nested token list (the Token also stores the
matched text, which determines its length). -/
inductive Tok where
  | plain (s : List Char)
  | simple (cls : String) (content : List Char)
  | nested (cls : String) (content : List Tok) (matched : List Char)

/-- Node length, as used by matchGrammar's position arithmetic
(for a Token this is the length of the matched string). -/
def Tok.len : Tok → Nat
  | .plain s => s.length
  | .simple _ c => c.length
  | .nested _ _ m => m.length

/-- Whether a node is an untokenized string. -/
def Tok.isPlain : Tok → Bool
  | .plain _ => true
  | _ => false

/-- The string of a plain node (empty for tokens; only used on plain nodes). -/
def Tok.str : Tok → List Char
  | .plain s => s
  | _ => []

/-- One rule of an inside sub-grammar (all inside rules of these grammars are
plain regexes: not greedy, not global, no further nesting). -/
structure SimplePat where
  re : Regex
deriving DecidableEq

/-- An inside sub-grammar: token classes in declaration order. -/
abbrev SimpleGrammar := List (String × List SimplePat)

/-- The immutable part of one rule of a grammar: its regex, its greedy flag
and its optional inside sub-grammar. -/
structure Pat where
  re : Regex
  greedy : Bool
  inside : Option SimpleGrammar
deriving DecidableEq

/-- The immutable part of a grammar: token classes in declaration order,
each with its list of rules. -/
abbrev CoreGrammar := List (String × List Pat)

/-- A grammar descriptor as registered on Prism.languages: the rule table
plus the current global flag of every rule's regex object. -/
structure GrammarObj where
  core : CoreGrammar
  flags : List (List Bool)
deriving DecidableEq

/-- Set the global flag of rule j of class ci (the recompilation
patternObj.pattern = RegExp(source, flags + 'g') performed for greedy rules). -/
def setFlag (fs : List (List Bool)) (ci j : Nat) : List (List Bool) :=
  match fs.get? ci with
  | none => fs
  | some row => fs.set ci (row.set j true)

/-- The reach recorded in a rematch record. -/
def reachOf : Option (String × Nat × Nat) → Nat
  | none => 0
  | some (_, _, r) => r

/-- rematch.cause == token + ',' + j -/
def causeHit (rm : Option (String × Nat × Nat)) (name : String) (j : Nat) : Bool :=
  match rm with
  | some (c, cj, _) => c == name && cj == j
  | none => false

/-- rematch && pos >= rematch.reach -/
def reachBreak (rm : Option (String × Nat × Nat)) (pos : Nat) : Bool :=
  match rm with
  | some (_, _, r) => decide (r ≤ pos)
  | none => false

/-- if (reach > rematch.reach) rematch.reach = reach -/
def bumpReach (rm : Option (String × Nat × Nat)) (r : Nat) :
    Option (String × Nat × Nat) :=
  match rm with
  | some (c, cj, r0) => some (c, cj, max r0 r)
  | none => none

/-- Lift an inside sub-grammar to a full grammar (its rules have no greedy
flag and no further nesting), for the recursive Prism.tokenize call. -/
def liftSimple (sg : SimpleGrammar) : CoreGrammar :=
  sg.map (fun p => (p.1, p.2.map (fun sp => ⟨sp.re, false, none⟩)))

/-- Fresh flag table for a grammar none of whose regexes carries g. -/
def zeroFlags (g : CoreGrammar) : List (List Bool) :=
  g.map (fun p => p.2.map (fun _ => false))

/-- Advance over the nodes wholly before text position tgt
(the while (from >= p) walk of the greedy branch). -/
def walkTo (tgt : Nat) : List Tok → List Tok → Nat → (List Tok × List Tok × Nat)
  | acc, [], pos => (acc, [], pos)
  | acc, t :: rest, pos =>
      if pos + t.len ≤ tgt then walkTo tgt (t :: acc) rest (pos + t.len)
      else (acc, t :: rest, pos)

/-- Collect the nodes affected by a greedy match ending at to_
(the removeCount loop: consume while p < to or the node is a string). -/
def spanTake (to_ : Nat) : List Tok → Nat → (List Tok × List Tok × Nat)
  | [], p => ([], [], p)
  | k :: rest, p =>
      if p < to_ || k.isPlain then
        let r := spanTake to_ rest (p + k.len)
        (k :: r.1, r.2.1, r.2.2)
      else ([], k :: rest, p)

/-- Result of a matchGrammar frame. -/
structure EngineOut where
  items : List Tok
  flags : List (List Bool)
  reach : Nat

/-- Result of one rule's node loop. -/
structure NodeOut where
  items : List Tok
  flags : List (List Bool)
  rm : Option (String × Nat × Nat)
  abort : Bool

mutual

/-- matchGrammar: iterate the classes of g from rule (ci, j) on, scanning the
node suffix items whose first node starts at text position startPos and which
is preceded by preCount nodes (for the tokenList.length guard). -/
def mgAux (fuel : Nat) (text : List Char) (g : CoreGrammar)
    (fs : List (List Bool)) (ci j : Nat) (items : List Tok) (startPos : Nat)
    (preCount : Nat) (rm : Option (String × Nat × Nat)) : EngineOut :=
  match fuel with
  | 0 => ⟨items, fs, reachOf rm⟩
  | fuel + 1 =>
    match g.get? ci with
    | none => ⟨items, fs, reachOf rm⟩
    | some cls =>
      match cls.2.get? j with
      | none => mgAux fuel text g fs (ci + 1) 0 items startPos preCount rm
      | some pat =>
        if causeHit rm cls.1 j then ⟨items, fs, reachOf rm⟩
        else
          let fs := if pat.greedy then setFlag fs ci j else fs
          let r := runNodes fuel text g fs ci j cls.1 pat [] items startPos
            preCount rm
          if r.abort then ⟨r.items, r.flags, reachOf r.rm⟩
          else mgAux fuel text g r.flags ci (j + 1) r.items startPos preCount r.rm
termination_by structural fuel

/-- The node loop of matchGrammar for one rule: acc holds (reversed) the
nodes already passed, items the nodes still to scan, pos the text position of
the first node of items. -/
def runNodes (fuel : Nat) (text : List Char) (g : CoreGrammar)
    (fs : List (List Bool)) (ci j : Nat) (name : String) (pat : Pat)
    (acc : List Tok) (items : List Tok) (pos : Nat) (preCount : Nat)
    (rm : Option (String × Nat × Nat)) : NodeOut :=
  match fuel with
  | 0 => ⟨acc.reverse ++ items, fs, rm, false⟩
  | fuel + 1 =>
    match items with
    | [] => ⟨acc.reverse, fs, rm, false⟩
    | item :: rest =>
      if reachBreak rm pos then ⟨acc.reverse ++ items, fs, rm, false⟩
      else if text.length < preCount + acc.length + items.length then
        ⟨acc.reverse ++ items, fs, rm, true⟩
      else if !item.isPlain then
        runNodes fuel text g fs ci j name pat (item :: acc) rest
          (pos + item.len) preCount rm
      else if pat.greedy then
        match execFrom pat.re text pos with
        | none => ⟨acc.reverse ++ items, fs, rm, false⟩
        | some fe =>
          if text.length ≤ fe.1 then ⟨acc.reverse ++ items, fs, rm, false⟩
          else
            let w := walkTo fe.1 acc items pos
            match w.2.1 with
            | [] => ⟨w.1.reverse, fs, rm, false⟩
            | cur :: rest2 =>
              if !cur.isPlain then
                runNodes fuel text g fs ci j name pat (cur :: w.1) rest2
                  (w.2.2 + cur.len) preCount rm
              else
                let sp := spanTake fe.2 (cur :: rest2) w.2.2
                let str := sliceL text w.2.2 sp.2.2
                let before := sliceL text w.2.2 fe.1
                let after := sliceL text fe.2 sp.2.2
                let reach := w.2.2 + str.length
                let rm := bumpReach rm reach
                let wrapped := mkTok fuel name pat (sliceL text fe.1 fe.2)
                let acc2 := if before.isEmpty then w.1 else .plain before :: w.1
                let posW := w.2.2 + before.length
                let itemsW := wrapped ::
                  (if after.isEmpty then sp.2.1 else .plain after :: sp.2.1)
                if 1 < sp.1.length then
                  let sub := mgAux fuel text g fs 0 0 itemsW posW
                    (preCount + acc2.length) (some (name, j, reach))
                  runNodes fuel text g sub.flags ci j name pat acc2 sub.items
                    posW preCount (bumpReach rm sub.reach)
                else
                  runNodes fuel text g fs ci j name pat acc2 itemsW posW
                    preCount rm
      else
        let str := item.str
        match execFrom pat.re str 0 with
        | none =>
            runNodes fuel text g fs ci j name pat (item :: acc) rest
              (pos + item.len) preCount rm
        | some fe =>
            let before := str.take fe.1
            let after := str.drop fe.2
            let reach := pos + str.length
            let rm := bumpReach rm reach
            let wrapped := mkTok fuel name pat (sliceL str fe.1 fe.2)
            let acc2 := wrapped ::
              (if before.isEmpty then acc else .plain before :: acc)
            let items2 := if after.isEmpty then rest else .plain after :: rest
            runNodes fuel text g fs ci j name pat acc2 items2
              (pos + before.length + wrapped.len) preCount rm
termination_by structural fuel

/-- new Token(token, inside ? tokenize(matchStr, inside) : matchStr, ..). -/
def mkTok (fuel : Nat) (name : String) (pat : Pat) (matchStr : List Char) :
    Tok :=
  match pat.inside with
  | none => .simple name matchStr
  | some ig =>
      match fuel with
      | 0 => .nested name [.plain matchStr] matchStr
      | f + 1 =>
          let lg := liftSimple ig
          let r := mgAux f matchStr lg (zeroFlags lg) 0 0 [.plain matchStr] 0 0
            none
          .nested name r.items matchStr
termination_by structural fuel

end

/-- Fuel amply covering every call chain of matchGrammar on the inputs of
this development (each unbounded loop of the engine advances through the
text or through the rule table). -/
def bigFuel (text : String) : Nat :=
  4000 * (text.length + 10)

/-- Prism.tokenize on a registered grammar object: returns the token list
and the grammar object as it is after the call (greedy rules recompiled
with the g flag). -/
def tokenizeST (g : GrammarObj) (text : String) : List Tok × GrammarObj :=
  let out := mgAux (bigFuel text) text.data g.core g.flags 0 0
    [.plain text.data] 0 0 none
  (out.items, ⟨g.core, out.flags⟩)

/-- The token list of Prism.tokenize. -/
def tokenizeToks (g : GrammarObj) (text : String) : List Tok :=
  (tokenizeST g text).1

/-!
## Regex construction helpers

Combinators mirroring the regex source notation, used to transcribe the
pattern tables.
-/

/-- Literal string regex. -/
def strR (s : String) : Regex :=
  s.data.foldr (fun c r => Regex.cat (.ch c) r) .eps

/-- Literal string regex under the /i flag. -/
def strRI (s : String) : Regex :=
  s.data.foldr (fun c r => Regex.cat (.chi c) r) .eps

/-- Alternation a|b|c (left to right preference, as in JS). -/
def altsR : List Regex → Regex
  | [] => .eps
  | [r] => r
  | r :: rest => .alt r (altsR rest)

/-- r+ (greedy). -/
def plusR (r : Regex) : Regex :=
  .cat r (.star r)

/-- r{n}. -/
def repN (n : Nat) (r : Regex) : Regex :=
  (List.range n).foldr (fun _ acc => Regex.cat r acc) .eps

/-- The \s class. -/
def sR : Regex := .cls false [.sEsc]

/-- The \w class (also written [\w] in the sources). -/
def wR : Regex := .cls false [.wEsc]

/-- The \d class. -/
def dR : Regex := .cls false [.dEsc]

/-- Alternation of literal words kw1|kw2|... -/
def wordAlt (ws : List String) : Regex :=
  altsR (ws.map strR)

/-- Join regexes with a separator regex between consecutive elements. -/
def joinWithSep (sep : Regex) : List Regex → Regex
  | [] => .eps
  | [r] => r
  | r :: rest => .cat r (.cat sep (joinWithSep sep rest))

/-- Split a character list into its whitespace-separated words. -/
def splitWordsGo (cur : List Char) : List Char → List (List Char)
  | [] => [cur.reverse]
  | c :: rest =>
      if isSpaceCh c then cur.reverse :: splitWordsGo [] rest
      else splitWordsGo (c :: cur) rest

/-- The non-empty whitespace-separated words of a string (empty segments
dropped, mirroring the run-collapsing \s+ replacement). -/
def splitWords (l : List Char) : List (List Char) :=
  (splitWordsGo [] l).filter (fun w => !w.isEmpty)

/-- Literal regex for a character list. -/
def strLR (l : List Char) : Regex :=
  l.foldr (fun c r => Regex.cat (.ch c) r) .eps

/-- k.replace(/\s+/g, '\\s+'): a multi-word keyword becomes its words joined
by \s+. -/
def kwRegex (k : String) : Regex :=
  joinWithSep (plusR sR) ((splitWords k.data).map strLR)

/-- Stable insert for the length-descending sort (a later element goes after
existing elements of equal length). -/
def insertLenDesc (x : String) : List String → List String
  | [] => [x]
  | y :: ys => if y.length < x.length then x :: y :: ys else y :: insertLenDesc x ys

/-- keywords.sort((a, b) => b.length - a.length): stable sort by descending
length, as performed by Array.prototype.sort. -/
def sortLenDesc (l : List String) : List String :=
  l.foldl (fun acc x => insertLenDesc x acc) []

/-!
## The grammar of packages/prism-rac/src/index.ts
-/

namespace PrismRac

/-- sectionKeywords (index.ts lines 7-20). -/
def sectionKeywords : List String :=
  ["text", "parameter", "variable", "input", "enum", "function", "versions",
   "module", "version", "jurisdiction", "import", "references"]

/-- attributeKeys (index.ts lines 22-48). -/
def attributeKeys : List String :=
  ["description", "unit", "source", "reference", "values", "imports",
   "entity", "period", "dtype", "label", "default", "formula", "tests",
   "name", "inputs", "expect", "metadata", "enacted_by", "reverts_to",
   "parameters", "threshold", "cap", "defined_for", "private", "internal"]

/-- formulaKeywords (index.ts lines 50-68). -/
def formulaKeywords : List String :=
  ["if", "else", "elif", "return", "for", "break", "and", "or", "not", "in",
   "as", "True", "False", "None", "let", "match", "case"]

/-- formulaBuiltins (index.ts line 70). -/
def formulaBuiltins : List String :=
  ["max", "min", "abs", "round", "sum", "len", "interpolate"]

/-- entityTypes (index.ts line 72). -/
def entityTypes : List String :=
  ["Person", "TaxUnit", "Household", "Family", "SPMUnit"]

/-- periodTypes (index.ts line 74). -/
def periodTypes : List String :=
  ["Year", "Month", "Day", "Instant"]

/-- dataTypes (index.ts line 76). -/
def dataTypes : List String :=
  ["Money", "Rate", "Boolean", "Integer", "String", "USD"]

/-- Inside grammar of section-declaration:
section-keyword ^(?:kws), declaration-name (?<=\s)[\w]+(?=\s*:),
punctuation /:/. -/
def sdInside : SimpleGrammar :=
  [("section-keyword", [⟨.cat (.bol false) (wordAlt sectionKeywords)⟩]),
   ("declaration-name",
     [⟨.cat (.lookb sR) (.cat (plusR wR) (.look (.cat (.star sR) (.ch ':'))))⟩]),
   ("punctuation", [⟨.ch ':'⟩])]

/-- Inside grammar of attr-name: attr-name (?:keys), and the dash as
punctuation. -/
def anInside : SimpleGrammar :=
  [("attr-name", [⟨wordAlt attributeKeys⟩]),
   ("punctuation", [⟨.ch '-'⟩])]

/-- racGrammar (index.ts lines 79-199), rule by rule in declaration order. -/
def racGrammar : CoreGrammar :=
  [("comment",
     [⟨.cat (.ch '#') (.star .dot), true, none⟩,
      ⟨.cat (strR "//") (.star .dot), true, none⟩]),
   ("section-declaration",
     [⟨.cat (.bol true)
        (.cat (wordAlt sectionKeywords)
          (.cat (.opt (.cat (plusR sR) (plusR wR)))
            (.cat (.star sR) (.ch ':')))),
       false, some sdInside⟩]),
   ("attr-name",
     [⟨.cat (.alt (.bol true) (.ch '\n'))
        (.cat (plusR (.cls false [.single ' ', .single '\t']))
          (.cat (.opt (strR "- "))
            (.cat (wordAlt attributeKeys)
              (.look (.cat (.star sR) (.ch ':')))))),
       false, some anInside⟩]),
   ("import-path",
     [⟨.cat (plusR dR)
        (.cat (plusR (.cat (.ch '/') (plusR wR)))
          (.cat (.ch '#') (plusR wR))),
       true, none⟩]),
   ("date",
     [⟨.cat .wb
        (.cat (repN 4 dR)
          (.cat (.ch '-')
            (.cat (.alt (.cat (.ch '0') (.cls false [.range '1' '9']))
                    (.cat (.ch '1') (.cls false [.range '0' '2'])))
              (.cat (.ch '-')
                (.cat (altsR
                    [.cat (.ch '0') (.cls false [.range '1' '9']),
                     .cat (.cls false [.single '1', .single '2']) dR,
                     .cat (.ch '3') (.cls false [.single '0', .single '1'])])
                  .wb))))),
       true, none⟩]),
   ("string",
     [⟨.cat (.ch '"')
        (.cat (.star (.alt (.cls true [.single '"', .single '\\'])
                (.cat (.ch '\\') .dot)))
          (.ch '"')),
       true, none⟩,
      ⟨.cat (.ch '\'')
        (.cat (.star (.alt (.cls true [.single '\'', .single '\\'])
                (.cat (.ch '\\') .dot)))
          (.ch '\'')),
       true, none⟩]),
   ("block-scalar",
     [⟨.cat (.cls false [.single '|', .single '>'])
        (.look (.cat (.star sR) (.eol true))),
       false, none⟩]),
   ("entity-type", [⟨.cat .wb (.cat (wordAlt entityTypes) .wb), false, none⟩]),
   ("period-type", [⟨.cat .wb (.cat (wordAlt periodTypes) .wb), false, none⟩]),
   ("dtype", [⟨.cat .wb (.cat (wordAlt dataTypes) .wb), false, none⟩]),
   ("builtin", [⟨.cat .wb (.cat (wordAlt formulaBuiltins) .wb), false, none⟩]),
   ("keyword", [⟨.cat .wb (.cat (wordAlt formulaKeywords) .wb), false, none⟩]),
   ("boolean",
     [⟨.cat .wb (.cat (.alt (strRI "true") (strRI "false")) .wb), false, none⟩]),
   ("number",
     [⟨.cat .wb (.cat (strR "0x")
        (.cat (plusR (.cls false [.dEsc, .range 'a' 'f', .range 'A' 'F'])) .wb)),
       false, none⟩,
      ⟨.cat (.opt (.ch '-'))
        (.cat .wb (.cat (plusR dR)
          (.cat (.opt (.cat (.ch '.') (plusR dR))) (.ch '%')))),
       false, none⟩,
      ⟨.cat (.opt (.ch '-'))
        (.cat .wb (.cat (plusR dR)
          (.cat (.opt (.cat (.ch '.') (plusR dR))) .wb))),
       false, none⟩]),
   ("operator",
     [⟨altsR [strR "==", strR "!=", strR "<=", strR ">=", strR "=>",
        .cls false [.single '+', .single '-', .single '*', .single '/',
          .single '<', .single '>', .single '=', .single '!', .single '?',
          .single '%']],
       false, none⟩]),
   ("punctuation",
     [⟨.cls false [.single '{', .single '}', .single '[', .single ']',
        .single '(', .single ')', .single ',', .single ':', .single '.'],
       false, none⟩])]

/-- Initial global flags of racGrammar's regex objects: only the attr-name
pattern is compiled with the g flag ('gm'). -/
def racFlags : List (List Bool) :=
  [[false, false], [false], [true], [false], [false], [false, false], [false],
   [false], [false], [false], [false], [false], [false],
   [false, false, false], [false], [false]]

/-- Prism.languages.rac, as registered at load time. -/
def racGrammarObj : GrammarObj :=
  ⟨racGrammar, racFlags⟩

/-- catalaKeywords of prism-rac (index.ts lines 207-251). -/
def catalaKeywords : List String :=
  ["scope", "definition", "rule", "under condition", "consequence",
   "assertion", "equals", "if", "then", "else", "match", "with pattern",
   "for", "let", "in", "not", "and", "or", "true", "false", "content",
   "struct", "enum", "declaration", "context", "input", "output", "internal",
   "state", "condition", "fulfilled", "integer", "decimal", "money", "date",
   "duration", "boolean", "collection", "sum", "exists", "among",
   "such that", "fixed by"]

/-- catalaGrammar of prism-rac (index.ts lines 253-306). -/
def catalaGrammar : CoreGrammar :=
  [("comment", [⟨.cat (.ch '#') (.star .dot), true, none⟩]),
   ("catala-title",
     [⟨.cat (strR "@@") (.cat (plusR (.cls true [.single '@'])) (strR "@@")),
       true, none⟩]),
   ("catala-section",
     [⟨.cat (.ch '@') (.cat (plusR (.cls true [.single '@'])) (.ch '@')),
       true, none⟩]),
   ("string",
     [⟨.cat (.ch '"')
        (.cat (.star (.alt (.cls true [.single '"', .single '\\'])
                (.cat (.ch '\\') .dot)))
          (.ch '"')),
       true, none⟩,
      ⟨.cat (.ch '\'')
        (.cat (.star (.alt (.cls true [.single '\'', .single '\\'])
                (.cat (.ch '\\') .dot)))
          (.ch '\'')),
       true, none⟩]),
   ("keyword",
     [⟨.cat .wb (.cat (altsR ((sortLenDesc catalaKeywords).map kwRegex)) .wb),
       false, none⟩]),
   ("number",
     [⟨.cat (.opt (.ch '-'))
        (.cat .wb (.cat (plusR dR)
          (.cat (.opt (.cat (.ch '.') (plusR dR))) .wb))),
       false, none⟩]),
   ("operator",
     [⟨altsR [strR "==", strR "!=", strR "<=", strR ">=", strR "--",
        strR "->",
        .cls false [.single '+', .single '-', .single '*', .single '/',
          .single '<', .single '>', .single '=', .single '!']],
       false, none⟩]),
   ("punctuation",
     [⟨.cls false [.single '{', .single '}', .single '[', .single ']',
        .single '(', .single ')', .single ',', .single ':', .single ';',
        .single '.'],
       false, none⟩])]

/-- Prism.languages.catala as registered by prism-rac. -/
def catalaGrammarObj : GrammarObj :=
  ⟨catalaGrammar, zeroFlags catalaGrammar⟩

end PrismRac

/-!
## The grammar of packages/prism-catala/src/index.ts
-/

namespace PrismCatala

/-- catalaKeywords (index.ts lines 9-16). -/
def catalaKeywords : List String :=
  ["scope", "definition", "rule", "under condition", "consequence",
   "assertion", "equals", "if", "then", "else", "match", "with pattern",
   "for", "let", "in", "not", "and", "or", "true", "false", "content",
   "struct", "enum", "declaration", "context", "input", "output", "internal",
   "state", "condition", "fulfilled", "sum", "exists", "among", "such that",
   "fixed by"]

/-- typeNames (index.ts line 18). -/
def typeNames : List String :=
  ["money", "decimal", "integer", "boolean", "date", "duration", "collection"]

/-- Inside grammar of scope-declaration: keyword \b(?:declaration|scope)\b,
scope-name \w+$. -/
def scopeInside : SimpleGrammar :=
  [("keyword",
     [⟨.cat .wb (.cat (.alt (strR "declaration") (strR "scope")) .wb)⟩]),
   ("scope-name", [⟨.cat (plusR wR) (.eol false)⟩])]

/-- catalaGrammar (index.ts lines 20-81), rule by rule in declaration order. -/
def catalaGrammar : CoreGrammar :=
  [("comment",
     [⟨.cat (.ch '#') (.star .dot), true, none⟩,
      ⟨.cat (strR "/*")
        (.cat (.starL (.cls false [.sEsc, .nsEsc])) (strR "*/")),
       true, none⟩]),
   ("catala-title",
     [⟨.cat (strR "@@") (.cat (plusR (.cls true [.single '@'])) (strR "@@")),
       true, none⟩]),
   ("catala-section",
     [⟨.cat (.ch '@') (.cat (plusR (.cls true [.single '@'])) (.ch '@')),
       true, none⟩]),
   ("string",
     [⟨.cat (.ch '"')
        (.cat (.star (.alt (.cls true [.single '"', .single '\\'])
                (.cat (.ch '\\') .dot)))
          (.ch '"')),
       true, none⟩,
      ⟨.cat (.ch '\'')
        (.cat (.star (.alt (.cls true [.single '\'', .single '\\'])
                (.cat (.ch '\\') .dot)))
          (.ch '\'')),
       true, none⟩]),
   ("scope-declaration",
     [⟨.cat .wb
        (.cat (.alt (.cat (strR "declaration") (.cat (plusR sR) (strR "scope")))
                (strR "scope"))
          (.cat (plusR sR) (plusR wR))),
       false, some scopeInside⟩]),
   ("type-name", [⟨.cat .wb (.cat (wordAlt typeNames) .wb), false, none⟩]),
   ("keyword",
     [⟨.cat .wb (.cat (altsR ((sortLenDesc catalaKeywords).map kwRegex)) .wb),
       false, none⟩]),
   ("number",
     [⟨.cat (.opt (.ch '-'))
        (.cat .wb (.cat (plusR dR)
          (.cat (.opt (.cat (.ch '.') (plusR dR))) (.ch '%')))),
       false, none⟩,
      ⟨.cat (.opt (.ch '-'))
        (.cat .wb (.cat (plusR dR)
          (.cat (.opt (.cat (.ch '.') (plusR dR))) .wb))),
       false, none⟩]),
   ("operator",
     [⟨altsR [strR "==", strR "!=", strR "<=", strR ">=", strR "--",
        strR "->",
        .cls false [.single '+', .single '-', .single '*', .single '/',
          .single '<', .single '>', .single '=', .single '!']],
       false, none⟩]),
   ("punctuation",
     [⟨.cls false [.single '{', .single '}', .single '[', .single ']',
        .single '(', .single ')', .single ',', .single ':', .single ';',
        .single '.'],
       false, none⟩])]

/-- Prism.languages.catala as registered by prism-catala. -/
def catalaGrammarObj : GrammarObj :=
  ⟨catalaGrammar, zeroFlags catalaGrammar⟩

end PrismCatala

/-!
## The helpers of the test suites
-/

/-- Fueled worker for flattenTokens (the fuel, decremented once per visited
node, only serves to make the recursion over the nested token tree
structural; it is never exhausted on a tokenizer output). -/
def flattenAux : Nat → List Tok → List (String × String)
  | 0, _ => []
  | _, [] => []
  | f + 1, .plain s :: rest =>
      (if s.any (fun c => !isSpaceCh c) then [("plain", String.mk s)] else []) ++
        flattenAux f rest
  | f + 1, .simple c s :: rest => (c, String.mk s) :: flattenAux f rest
  | f + 1, .nested _ ts _ :: rest => flattenAux f ts ++ flattenAux f rest

/-- flattenTokens of the two test suites (identical in both): flatten the
token tree to (type, content) pairs, recursing into nested content, keeping
non-whitespace strings as plain entries. -/
def flattenTokens (l : List Tok) : List (String × String) :=
  flattenAux 1000000 l

/-- hasToken of the test suites: whether tokenizing code with the given
grammar yields a flattened token of the given type with the given content. -/
def hasToken (g : GrammarObj) (code ty content : String) : Bool :=
  (flattenTokens (tokenizeToks g code)).any
    (fun p => p.1 == ty && p.2 == content)

/-- Fueled worker for treeHasCls. -/
def treeHasClsAux (c : String) : Nat → List Tok → Bool
  | 0, _ => false
  | _, [] => false
  | f + 1, .plain _ :: rest => treeHasClsAux c f rest
  | f + 1, .simple c2 _ :: rest => c2 == c || treeHasClsAux c f rest
  | f + 1, .nested c2 ts _ :: rest =>
      c2 == c || treeHasClsAux c f ts || treeHasClsAux c f rest

/-- Whether the token tree contains a token of the given class (including
composite tokens such as section-declaration, which flattenTokens dissolves
into their inner tokens). -/
def treeHasCls (c : String) (l : List Tok) : Bool :=
  treeHasClsAux c 1000000 l

/-!
## The declaration rule of the VS Code TextMate grammar
-/

/-- Modelled from the spec: the TextMate grammar file rac.tmLanguage.json is
not under src/ (only its test suite, src/unnamed/part_000, is).  Its
keyword.declaration.rac rule matches a line that starts with one of the
current declaration keywords, optionally followed by a name, and ends in a
colon; per the spec's unified syntax the legacy keywords parameter, variable
(and input) are no longer declaration keywords.  The keyword list is the one
the test suite asserts (part_000 lines 328-351). -/
def declarationKeywords : List (List Char) :=
  [['t','e','x','t'], ['e','n','u','m'],
   ['f','u','n','c','t','i','o','n'],
   ['v','e','r','s','i','o','n','s'],
   ['m','o','d','u','l','e'],
   ['v','e','r','s','i','o','n'],
   ['j','u','r','i','s','d','i','c','t','i','o','n'],
   ['i','m','p','o','r','t'],
   ['r','e','f','e','r','e','n','c','e','s']]

/-- Modelled from the spec: a word followed by a colon, the optional
name part of a declaration header. -/
def wordThenColon (l : List Char) : Bool :=
  let w := l.takeWhile isWordCh
  !w.isEmpty && (l.drop w.length).head? == some ':'

/-- Modelled from the spec: whether the line-anchored declaration-keyword
rule of rac.tmLanguage.json matches the given line, i.e. the line is
keyword:, or keyword name:. -/
def tmDeclarationMatch (line : List Char) : Bool :=
  declarationKeywords.any fun kw =>
    (kw ++ [':']).isPrefixOf line ||
      ((kw ++ [' ']).isPrefixOf line &&
        wordThenColon (line.drop (kw.length + 1)))

/-!
## Validity of the declared pattern sources

A conservative recogniser for the ECMAScript RegExp pattern grammar (the
compilation step performed by new RegExp, as exercised by testRegexCompiles
in src/unnamed/part_000): balanced groups and classes, well-formed group
heads, quantifiers only after atoms, and escapes from the valid escape sets.
-/

/-- ASCII letter or digit. -/
def isAlphaNumCh (c : Char) : Bool :=
  (65 ≤ c.toNat && c.toNat ≤ 90) || (97 ≤ c.toNat && c.toNat ≤ 122) ||
    (48 ≤ c.toNat && c.toNat ≤ 57)

/-- Valid character after a backslash inside a bracket class. -/
def classEscOk (c : Char) : Bool :=
  !isAlphaNumCh c || "dDsSwWbfnrtv0".data.contains c

/-- Valid character after a backslash outside a class. -/
def atomEscOk (c : Char) : Bool :=
  !isAlphaNumCh c || "dDsSwWbBfnrtv0".data.contains c

/-- Consume a bracket class body up to its closing bracket. -/
def parseCls : Nat → List Char → Option (List Char)
  | 0, _ => none
  | _, [] => none
  | f + 1, c :: r =>
      if c == ']' then some r
      else if c == '\\' then
        match r with
        | [] => none
        | e :: r2 => if classEscOk e then parseCls f r2 else none
      else parseCls f r

/-- Consume an optional quantifier (with optional laziness marker). -/
def quantTail (l : List Char) : Option (List Char) :=
  let lazyOpt : List Char → List Char := fun l =>
    match l with
    | '?' :: r => r
    | _ => l
  match l with
  | '*' :: r => some (lazyOpt r)
  | '+' :: r => some (lazyOpt r)
  | '?' :: r => some (lazyOpt r)
  | '{' :: r =>
      let d1 := r.takeWhile isDigitCh
      if d1.isEmpty then none
      else
        match r.drop d1.length with
        | '}' :: r2 => some (lazyOpt r2)
        | ',' :: r2 =>
            let d2 := r2.takeWhile isDigitCh
            match r2.drop d2.length with
            | '}' :: r3 => some (lazyOpt r3)
            | _ => none
        | _ => none
  | _ => some l

/-- Parse a disjunction; stops at an unconsumed closing parenthesis
(returned to the caller) or at the end of the pattern. -/
def reParse : Nat → List Char → Option (List Char)
  | 0, _ => none
  | _, [] => some []
  | f + 1, l =>
      match l with
      | [] => some []
      | ')' :: _ => some l
      | '|' :: r => reParse f r
      | '^' :: r => reParse f r
      | '$' :: r => reParse f r
      | '(' :: r =>
          let body : Option (List Char) :=
            match r with
            | '?' :: ':' :: r2 => some r2
            | '?' :: '=' :: r2 => some r2
            | '?' :: '!' :: r2 => some r2
            | '?' :: '<' :: '=' :: r2 => some r2
            | '?' :: '<' :: '!' :: r2 => some r2
            | '?' :: _ => none
            | _ => some r
          match body with
          | none => none
          | some b =>
              match reParse f b with
              | some (')' :: rest) =>
                  match quantTail rest with
                  | some rest2 => reParse f rest2
                  | none => none
              | _ => none
      | '[' :: r =>
          let r2 :=
            match r with
            | '^' :: r1 => r1
            | _ => r
          match parseCls (r2.length + 1) r2 with
          | some rest =>
              match quantTail rest with
              | some rest2 => reParse f rest2
              | none => none
          | none => none
      | '\\' :: e :: r =>
          if atomEscOk e then
            match quantTail r with
            | some rest => reParse f rest
            | none => none
          else none
      | '\\' :: [] => none
      | '*' :: _ => none
      | '+' :: _ => none
      | '?' :: _ => none
      | _ :: r =>
          match quantTail r with
          | some rest => reParse f rest
          | none => none

/-- new RegExp(pattern) succeeds: the pattern source is a well-formed
ECMAScript pattern. -/
def regexCompiles (p : String) : Bool :=
  match reParse (p.data.length + 1) p.data with
  | some [] => true
  | _ => false

/-- The flag string of a RegExp construction is valid: known flag letters,
none repeated. -/
def flagsOk (fl : String) : Bool :=
  fl.data.all (fun c => "gimsuy".data.contains c) && fl.data.Nodup

/-- \b(?:a|b|c)\b source text for a word list. -/
def wordAltSource (ws : List String) : String :=
  "\\b(?:" ++ String.intercalate "|" ws ++ ")\\b"

/-- The source of one sorted multi-word keyword after
k.replace(/\s+/g, '\\s+'). -/
def kwSource (k : String) : String :=
  String.intercalate "\\s+" ((splitWords k.data).map String.mk)

/-- The double- and single-quoted string patterns. -/
def stringPatternSources : List (String × String) :=
  [("\"(?:[^\"\\\\]|\\\\.)*\"", ""), ("'(?:[^'\\\\]|\\\\.)*'", "")]

/-- Every (pattern source, flags) pair of racGrammar, in declaration order,
including the inside rules: regex literals contribute their literal source,
RegExp constructions the string they are built from. -/
def racPatternSources : List (String × String) :=
  [("#.*", ""), ("\\/\\/.*", ""),
   ("^(?:" ++ String.intercalate "|" PrismRac.sectionKeywords ++
      ")(?:\\s+[\\w]+)?\\s*:", "m"),
   ("^(?:" ++ String.intercalate "|" PrismRac.sectionKeywords ++ ")", ""),
   ("(?<=\\s)[\\w]+(?=\\s*:)", ""),
   (":", ""),
   ("(?:^|\\n)[ \\t]+(?:- )?(?:" ++
      String.intercalate "|" PrismRac.attributeKeys ++ ")(?=\\s*:)", "gm"),
   ("(?:" ++ String.intercalate "|" PrismRac.attributeKeys ++ ")", ""),
   ("-", ""),
   ("\\d+(?:\\/[\\w]+)+#[\\w]+", ""),
   ("\\b\\d\x7b4\x7d-(?:0[1-9]|1[0-2])-(?:0[1-9]|[12]\\d|3[01])\\b", "")] ++
  stringPatternSources ++
  [("[|>](?=\\s*$)", "m"),
   (wordAltSource PrismRac.entityTypes, ""),
   (wordAltSource PrismRac.periodTypes, ""),
   (wordAltSource PrismRac.dataTypes, ""),
   (wordAltSource PrismRac.formulaBuiltins, ""),
   (wordAltSource PrismRac.formulaKeywords, ""),
   ("\\b(?:true|false)\\b", "i"),
   ("\\b0x[\\da-fA-F]+\\b", ""),
   ("-?\\b\\d+(?:\\.\\d+)?%", ""),
   ("-?\\b\\d+(?:\\.\\d+)?\\b", ""),
   ("==|!=|<=|>=|=>|[+\\-*/<>=!?%]", ""),
   ("[\x7b\x7d[\\](),:\\.]", "")]

/-- Every (pattern source, flags) pair of the catalaGrammar of prism-rac. -/
def catalaRacPatternSources : List (String × String) :=
  [("#.*", ""), ("@@[^@]+@@", ""), ("@[^@]+@", "")] ++
  stringPatternSources ++
  [(wordAltSource ((sortLenDesc PrismRac.catalaKeywords).map kwSource), ""),
   ("-?\\b\\d+(?:\\.\\d+)?\\b", ""),
   ("==|!=|<=|>=|--|->|[+\\-*/<>=!]", ""),
   ("[\x7b\x7d[\\](),:;\\.]", "")]

/-- Every (pattern source, flags) pair of the catalaGrammar of prism-catala,
including the scope-declaration inside rules. -/
def catalaPatternSources : List (String × String) :=
  [("#.*", ""), ("\\/\\*[\\s\\S]*?\\*\\/", ""),
   ("@@[^@]+@@", ""), ("@[^@]+@", "")] ++
  stringPatternSources ++
  [("\\b(?:declaration\\s+scope|scope)\\s+\\w+", ""),
   ("\\b(?:declaration|scope)\\b", ""),
   ("\\w+$", ""),
   (wordAltSource PrismCatala.typeNames, ""),
   (wordAltSource ((sortLenDesc PrismCatala.catalaKeywords).map kwSource), ""),
   ("-?\\b\\d+(?:\\.\\d+)?%", ""),
   ("-?\\b\\d+(?:\\.\\d+)?\\b", ""),
   ("==|!=|<=|>=|--|->|[+\\-*/<>=!]", ""),
   ("[\x7b\x7d[\\](),:;\\.]", "")]

/-- All declared (pattern, flags) pairs of both packages. -/
def allPatternSources : List (String × String) :=
  racPatternSources ++ catalaRacPatternSources ++ catalaPatternSources

/-!
## Claim theorems (concrete behaviour)
-/

/-- C1: legacy declaration constructs do not match the declaration-keyword
token class of the RAC TextMate grammar: no line 'parameter name:' or
'variable name:' matches it, while each of the nine current declaration
keywords does (with the fixture lines of the test suite). -/
theorem c1_legacy_keywords_not_declaration :
    (∀ name : List Char,
      tmDeclarationMatch
        (['p','a','r','a','m','e','t','e','r',' '] ++ name ++ [':']) = false) ∧
    (∀ name : List Char,
      tmDeclarationMatch
        (['v','a','r','i','a','b','l','e',' '] ++ name ++ [':']) = false) ∧
    tmDeclarationMatch "text:".data = true ∧
    tmDeclarationMatch "enum qux:".data = true ∧
    tmDeclarationMatch "function quux:".data = true ∧
    tmDeclarationMatch "versions:".data = true ∧
    tmDeclarationMatch "module m:".data = true ∧
    tmDeclarationMatch "version v:".data = true ∧
    tmDeclarationMatch "jurisdiction j:".data = true ∧
    tmDeclarationMatch "import i:".data = true ∧
    tmDeclarationMatch "references:".data = true := by
  refine ⟨?_, ?_, ?_, ?_, ?_, ?_, ?_, ?_, ?_, ?_, ?_⟩
  · intro name
    simp [tmDeclarationMatch, declarationKeywords, List.isPrefixOf]
  · intro name
    simp [tmDeclarationMatch, declarationKeywords, List.isPrefixOf]
  all_goals decide

/-- C2: every pattern source declared in the grammar tables of both packages
(every match pattern of the RAC and the two Catala grammars, including the
inside rules; the tables declare no begin/end rules) is a well-formed
ECMAScript pattern with a valid flag set, so new RegExp never throws on it
and the failure branch of the compilation check is unreachable. -/
theorem c2_all_patterns_compile :
    allPatternSources.all (fun pf => regexCompiles pf.1 && flagsOk pf.2)
      = true := by
  decide

/-- C3: the literal fixtures tokenize to the expected (class, content)
pairs: the comment line, the declaration header (section keyword plus
declaration name), the date attribute line, the import-path bullet for the
RAC grammar, and the double-at title for the Catala grammar. -/
theorem c3_fixture_tokens :
    hasToken PrismRac.racGrammarObj "# This is a comment" "comment"
      "# This is a comment" = true ∧
    hasToken PrismRac.racGrammarObj "parameter niit_rate:" "section-keyword"
      "parameter" = true ∧
    hasToken PrismRac.racGrammarObj "parameter niit_rate:" "declaration-name"
      "niit_rate" = true ∧
    hasToken PrismRac.racGrammarObj "  date: 2024-01-01" "date"
      "2024-01-01" = true ∧
    hasToken PrismRac.racGrammarObj "  - 26/1411/c#net_investment_income"
      "import-path" "26/1411/c#net_investment_income" = true ∧
    hasToken PrismCatala.catalaGrammarObj "@@Income tax@@" "catala-title"
      "@@Income tax@@" = true := by
  decide

/-- C4: rule order encodes priority: on '@@Title@@' the Catala grammar
produces a catala-title token covering the whole input and no catala-section
token, the title rule preceding the section rule in the table. -/
theorem c4_title_beats_section :
    hasToken PrismCatala.catalaGrammarObj "@@Title@@" "catala-title"
      "@@Title@@" = true ∧
    flattenTokens (tokenizeToks PrismCatala.catalaGrammarObj "@@Title@@")
      = [("catala-title", "@@Title@@")] ∧
    treeHasCls "catala-section"
      (tokenizeToks PrismCatala.catalaGrammarObj "@@Title@@") = false := by
  decide

/-- C6: every token class declared in the RAC grammar and in the Catala
grammar (including the composite classes and their inner classes) is
produced by at least one literal input. -/
theorem c6_every_class_inhabited :
    treeHasCls "comment" (tokenizeToks PrismRac.racGrammarObj "# x") = true ∧
    treeHasCls "section-declaration"
      (tokenizeToks PrismRac.racGrammarObj "parameter niit_rate:") = true ∧
    treeHasCls "section-keyword"
      (tokenizeToks PrismRac.racGrammarObj "parameter niit_rate:") = true ∧
    treeHasCls "declaration-name"
      (tokenizeToks PrismRac.racGrammarObj "parameter niit_rate:") = true ∧
    treeHasCls "attr-name"
      (tokenizeToks PrismRac.racGrammarObj "  cap: 1") = true ∧
    treeHasCls "import-path"
      (tokenizeToks PrismRac.racGrammarObj "1/a#b") = true ∧
    treeHasCls "date"
      (tokenizeToks PrismRac.racGrammarObj "2024-01-01") = true ∧
    treeHasCls "string"
      (tokenizeToks PrismRac.racGrammarObj "\"a\"") = true ∧
    treeHasCls "block-scalar" (tokenizeToks PrismRac.racGrammarObj "|") = true ∧
    treeHasCls "entity-type"
      (tokenizeToks PrismRac.racGrammarObj "Person") = true ∧
    treeHasCls "period-type"
      (tokenizeToks PrismRac.racGrammarObj "Year") = true ∧
    treeHasCls "dtype" (tokenizeToks PrismRac.racGrammarObj "Money") = true ∧
    treeHasCls "builtin" (tokenizeToks PrismRac.racGrammarObj "max") = true ∧
    treeHasCls "keyword" (tokenizeToks PrismRac.racGrammarObj "if") = true ∧
    treeHasCls "boolean" (tokenizeToks PrismRac.racGrammarObj "true") = true ∧
    treeHasCls "number" (tokenizeToks PrismRac.racGrammarObj "1") = true ∧
    treeHasCls "operator" (tokenizeToks PrismRac.racGrammarObj "+") = true ∧
    treeHasCls "punctuation" (tokenizeToks PrismRac.racGrammarObj ":") = true ∧
    treeHasCls "comment"
      (tokenizeToks PrismCatala.catalaGrammarObj "# c") = true ∧
    treeHasCls "catala-title"
      (tokenizeToks PrismCatala.catalaGrammarObj "@@T@@") = true ∧
    treeHasCls "catala-section"
      (tokenizeToks PrismCatala.catalaGrammarObj "@S@") = true ∧
    treeHasCls "string"
      (tokenizeToks PrismCatala.catalaGrammarObj "'s'") = true ∧
    treeHasCls "scope-declaration"
      (tokenizeToks PrismCatala.catalaGrammarObj "scope A") = true ∧
    treeHasCls "scope-name"
      (tokenizeToks PrismCatala.catalaGrammarObj "scope A") = true ∧
    treeHasCls "type-name"
      (tokenizeToks PrismCatala.catalaGrammarObj "money") = true ∧
    treeHasCls "keyword"
      (tokenizeToks PrismCatala.catalaGrammarObj "rule") = true ∧
    treeHasCls "number"
      (tokenizeToks PrismCatala.catalaGrammarObj "1") = true ∧
    treeHasCls "operator"
      (tokenizeToks PrismCatala.catalaGrammarObj "+") = true ∧
    treeHasCls "punctuation"
      (tokenizeToks PrismCatala.catalaGrammarObj ";") = true := by
  decide

/-- C7 counterexample: tokenizing does change the registered grammar
descriptor.  After tokenizing the input 'a' with the RAC grammar, the greedy
rules' regexes have been recompiled with the global flag, so the descriptor
differs from the one registered at load time. -/
theorem c7_counterexample_descriptor_mutates :
    (tokenizeST PrismRac.racGrammarObj "a").2 ≠ PrismRac.racGrammarObj := by
  decide

/-- C8 counterexample: the two grammars registered under the language name
catala are not equivalent: on the input 'scope A' the prism-catala grammar
produces a scope-declaration token (keyword 'scope' and scope-name 'A')
while the prism-rac grammar produces only the keyword token. -/
theorem c8_counterexample_scope_input :
    flattenTokens (tokenizeToks PrismCatala.catalaGrammarObj "scope A") ≠
      flattenTokens (tokenizeToks PrismRac.catalaGrammarObj "scope A") := by
  decide

/-- C8 amended: the two Catala grammar descriptors are not equivalent (they
differ as tables, and on 'scope A' their token sequences differ: prism-catala
yields the scope-declaration reading), but their document-structure rules
(hash comment, title, section, strings) are identical, and on
document-structure fixtures they produce the same token sequences. -/
theorem c8_amended_partial_agreement :
    PrismCatala.catalaGrammarObj ≠ PrismRac.catalaGrammarObj ∧
    flattenTokens (tokenizeToks PrismCatala.catalaGrammarObj "scope A")
      = [("keyword", "scope"), ("scope-name", "A")] ∧
    flattenTokens (tokenizeToks PrismRac.catalaGrammarObj "scope A")
      = [("keyword", "scope"), ("plain", " A")] ∧
    (PrismCatala.catalaGrammar.lookup "catala-title"
      = PrismRac.catalaGrammar.lookup "catala-title") ∧
    (PrismCatala.catalaGrammar.lookup "catala-section"
      = PrismRac.catalaGrammar.lookup "catala-section") ∧
    (PrismCatala.catalaGrammar.lookup "string"
      = PrismRac.catalaGrammar.lookup "string") ∧
    flattenTokens (tokenizeToks PrismCatala.catalaGrammarObj "@@T@@")
      = flattenTokens (tokenizeToks PrismRac.catalaGrammarObj "@@T@@") ∧
    flattenTokens (tokenizeToks PrismCatala.catalaGrammarObj "@S@")
      = flattenTokens (tokenizeToks PrismRac.catalaGrammarObj "@S@") ∧
    flattenTokens (tokenizeToks PrismCatala.catalaGrammarObj "# c")
      = flattenTokens (tokenizeToks PrismRac.catalaGrammarObj "# c") ∧
    flattenTokens (tokenizeToks PrismCatala.catalaGrammarObj "\"s\"")
      = flattenTokens (tokenizeToks PrismRac.catalaGrammarObj "\"s\"") := by
  decide

theorem engine_flags_irrel (fuel : Nat) :
    (∀ text g fs1 fs2 ci j items startPos pre rm,
      (mgAux fuel text g fs1 ci j items startPos pre rm).items
          = (mgAux fuel text g fs2 ci j items startPos pre rm).items ∧
        (mgAux fuel text g fs1 ci j items startPos pre rm).reach
          = (mgAux fuel text g fs2 ci j items startPos pre rm).reach) ∧
    (∀ text g fs1 fs2 ci j name pat acc items pos pre rm,
      (runNodes fuel text g fs1 ci j name pat acc items pos pre rm).items
          = (runNodes fuel text g fs2 ci j name pat acc items pos pre rm).items ∧
        (runNodes fuel text g fs1 ci j name pat acc items pos pre rm).rm
          = (runNodes fuel text g fs2 ci j name pat acc items pos pre rm).rm ∧
        (runNodes fuel text g fs1 ci j name pat acc items pos pre rm).abort
          = (runNodes fuel text g fs2 ci j name pat acc items pos pre rm).abort) := by
  induction fuel with
  | zero =>
      exact ⟨fun _ _ _ _ _ _ _ _ _ _ => ⟨rfl, rfl⟩,
        fun _ _ _ _ _ _ _ _ _ _ _ _ _ => ⟨rfl, rfl, rfl⟩⟩
  | succ f ih =>
      obtain ⟨ihMg, ihRn⟩ := ih
      constructor
      · intro text g fs1 fs2 ci j items startPos pre rm
        simp only [mgAux]
        cases hg : g.get? ci with
        | none => exact ⟨by trivial, by trivial⟩
        | some cls =>
          dsimp only
          cases hp : cls.2.get? j with
          | none => exact ihMg text g _ _ (ci + 1) 0 items startPos pre rm
          | some pat =>
            dsimp only
            cases hc : causeHit rm cls.1 j with
            | true => simp
            | false =>
              simp only [Bool.false_eq_true, if_false]
              obtain ⟨hI, hR, hA⟩ := ihRn text g
                (if pat.greedy then setFlag fs1 ci j else fs1)
                (if pat.greedy then setFlag fs2 ci j else fs2)
                ci j cls.1 pat [] items startPos pre rm
              rw [← hI, ← hR, ← hA]
              cases hab : (runNodes f text g
                  (if pat.greedy then setFlag fs1 ci j else fs1)
                  ci j cls.1 pat [] items startPos pre rm).abort with
              | true => exact ⟨by trivial, by trivial⟩
              | false =>
                  exact ihMg text g _ _ ci (j + 1) _ startPos pre _
      · intro text g fs1 fs2 ci j name pat acc items pos pre rm
        simp only [runNodes]
        cases items with
        | nil => exact ⟨by trivial, by trivial, by trivial⟩
        | cons item rest =>
          dsimp only
          cases hrb : reachBreak rm pos with
          | true => exact ⟨by trivial, by trivial, by trivial⟩
          | false =>
            simp only [Bool.false_eq_true, if_false]
            by_cases hguard : text.length < pre + acc.length + (item :: rest).length
            · simp only [if_pos hguard]
              exact ⟨by trivial, by trivial, by trivial⟩
            · simp only [if_neg hguard]
              cases hpl : !item.isPlain with
              | true =>
                  simp only [if_pos rfl]
                  exact ihRn text g fs1 fs2 ci j name pat (item :: acc) rest
                    (pos + item.len) pre rm
              | false =>
                  simp only [Bool.false_eq_true, if_false]
                  cases hgr : pat.greedy with
                  | false =>
                      simp only [Bool.false_eq_true, if_false]
                      cases he : execFrom pat.re item.str 0 with
                      | none =>
                          dsimp only
                          exact ihRn text g fs1 fs2 ci j name pat (item :: acc)
                            rest (pos + item.len) pre rm
                      | some fe =>
                          dsimp only
                          exact ihRn text g fs1 fs2 ci j name pat _ _ _ pre _
                  | true =>
                      simp only [if_pos rfl]
                      cases he : execFrom pat.re text pos with
                      | none => exact ⟨by trivial, by trivial, by trivial⟩
                      | some fe =>
                          dsimp only
                          by_cases hfe : text.length ≤ fe.1
                          · simp only [if_pos hfe]
                            exact ⟨by trivial, by trivial, by trivial⟩
                          · simp only [if_neg hfe]
                            cases hw : (walkTo fe.1 acc (item :: rest) pos).2.1 with
                            | nil => exact ⟨by trivial, by trivial, by trivial⟩
                            | cons cur rest2 =>
                              dsimp only
                              cases hcp : !cur.isPlain with
                              | true =>
                                  simp only [if_pos rfl]
                                  exact ihRn text g fs1 fs2 ci j name pat _ _ _ pre _
                              | false =>
                                  simp only [Bool.false_eq_true, if_false]
                                  by_cases hrc : 1 <
                                    (spanTake fe.2 (cur :: rest2)
                                      (walkTo fe.1 acc (item :: rest) pos).2.2).1.length
                                  · simp only [if_pos hrc]
                                    obtain ⟨sI, sR⟩ := ihMg text g fs1 fs2 0 0 _ _ _ _
                                    rw [← sI, ← sR]
                                    exact ihRn text g _ _ ci j name pat _ _ _ pre _
                                  · simp only [if_neg hrc]
                                    exact ihRn text g fs1 fs2 ci j name pat _ _ _ pre _

/-- C7 amended: tokenizing never changes the rule table of a registered
grammar (classes, order, patterns, greedy flags, inside grammars), and the
tokens of any later call are unaffected by the descriptor mutation a call
performs (which is confined to the regex objects' global flags): tokenizing
s2 after having tokenized s1 yields exactly the tokens of a fresh
tokenization of s2. -/
theorem c7_amended_descriptor_core_stable :
    (∀ (g : GrammarObj) (s : String), (tokenizeST g s).2.core = g.core) ∧
    (∀ (g : GrammarObj) (s1 s2 : String),
      tokenizeToks ((tokenizeST g s1).2) s2 = tokenizeToks g s2) := by
  constructor
  · intro g s
    rfl
  · intro g s1 s2
    exact ((engine_flags_irrel (bigFuel s2)).1 s2.data g.core _ g.flags
      0 0 [.plain s2.data] 0 0 none).1

/-- C10: tokenization is deterministic across runs on the registered
grammar: re-tokenizing the same input with the grammar object as mutated by
the first run produces the same token sequence as the first run. -/
theorem c10_tokenize_deterministic :
    ∀ (g : GrammarObj) (s : String),
      (tokenizeST ((tokenizeST g s).2) s).1 = (tokenizeST g s).1 := by
  intro g s
  exact ((engine_flags_irrel (bigFuel s)).1 s.data g.core _ g.flags
    0 0 [.plain s.data] 0 0 none).1

/-!
## Every produced token bears a declared class

Non-matching text is left as plain string nodes; the only tokens the engine
wraps carry the class name of the rule that matched.
-/

/-- A top-level node is untokenized text or a token of a declared class. -/
def TopOk (names : List String) : Tok → Prop
  | .plain _ => True
  | .simple c _ => c ∈ names
  | .nested c _ _ => c ∈ names

/-- mkTok wraps with the class of the current rule. -/
theorem mkTok_topOk (names : List String) (fuel : Nat) (name : String)
    (pat : Pat) (ms : List Char) (h : name ∈ names) :
    TopOk names (mkTok fuel name pat ms) := by
  unfold mkTok
  cases pat.inside with
  | none => exact h
  | some ig =>
      cases fuel with
      | zero => exact h
      | succ f => exact h

/-- walkTo only moves nodes between the two lists. -/
theorem walkTo_mem (tgt : Nat) :
    ∀ (items acc : List Tok) (pos : Nat),
      (∀ t ∈ (walkTo tgt acc items pos).1, t ∈ acc ∨ t ∈ items) ∧
      (∀ t ∈ (walkTo tgt acc items pos).2.1, t ∈ items) := by
  intro items
  induction items with
  | nil =>
      intro acc pos
      exact ⟨fun t ht => Or.inl ht, fun t ht => absurd ht (List.not_mem_nil t)⟩
  | cons hd tl ih =>
      intro acc pos
      unfold walkTo
      by_cases h : pos + hd.len ≤ tgt
      · simp only [if_pos h]
        obtain ⟨h1, h2⟩ := ih (hd :: acc) (pos + hd.len)
        constructor
        · intro t ht
          rcases h1 t ht with h3 | h3
          · rcases List.mem_cons.mp h3 with h4 | h4
            · exact Or.inr (h4 ▸ List.mem_cons_self hd tl)
            · exact Or.inl h4
          · exact Or.inr (List.mem_cons_of_mem hd h3)
        · intro t ht
          exact List.mem_cons_of_mem hd (h2 t ht)
      · simp only [if_neg h]
        exact ⟨fun t ht => Or.inl ht, fun t ht => ht⟩

/-- spanTake only splits the list. -/
theorem spanTake_mem (to_ : Nat) :
    ∀ (l : List Tok) (p : Nat),
      (∀ t ∈ (spanTake to_ l p).1, t ∈ l) ∧
      (∀ t ∈ (spanTake to_ l p).2.1, t ∈ l) := by
  intro l
  induction l with
  | nil =>
      intro p
      exact ⟨fun t ht => absurd ht (List.not_mem_nil t), fun t ht => absurd ht (List.not_mem_nil t)⟩
  | cons k rest ih =>
      intro p
      unfold spanTake
      by_cases h : p < to_ || k.isPlain
      · simp only [if_pos h]
        obtain ⟨h1, h2⟩ := ih (p + k.len)
        constructor
        · intro t ht
          rcases List.mem_cons.mp ht with h3 | h3
          · exact h3 ▸ List.mem_cons_self k rest
          · exact List.mem_cons_of_mem k (h1 t h3)
        · intro t ht
          exact List.mem_cons_of_mem k (h2 t ht)
      · simp only [if_neg h]
        exact ⟨fun t ht => absurd ht (List.not_mem_nil t), fun t ht => ht⟩

theorem engine_classes (fuel : Nat) :
    (∀ text g fs ci j items startPos pre rm,
      (∀ t ∈ items, TopOk (g.map Prod.fst) t) →
      ∀ t ∈ (mgAux fuel text g fs ci j items startPos pre rm).items,
        TopOk (g.map Prod.fst) t) ∧
    (∀ text g fs ci j name pat acc items pos pre rm,
      name ∈ g.map Prod.fst →
      (∀ t ∈ acc, TopOk (g.map Prod.fst) t) →
      (∀ t ∈ items, TopOk (g.map Prod.fst) t) →
      ∀ t ∈ (runNodes fuel text g fs ci j name pat acc items pos pre rm).items,
        TopOk (g.map Prod.fst) t) := by
  induction fuel with
  | zero =>
      constructor
      · intro text g fs ci j items startPos pre rm hIt
        simpa [mgAux] using hIt
      · intro text g fs ci j name pat acc items pos pre rm hN hAcc hIt
        simp only [runNodes]
        intro t ht
        rcases List.mem_append.mp ht with h | h
        · exact hAcc t (List.mem_reverse.mp h)
        · exact hIt t h
  | succ f ih =>
      obtain ⟨ihMg, ihRn⟩ := ih
      constructor
      · intro text g fs ci j items startPos pre rm hIt
        simp only [mgAux]
        cases hg : g.get? ci with
        | none => exact hIt
        | some cls =>
          dsimp only
          have hName : cls.1 ∈ g.map Prod.fst := by
            have hmem : cls ∈ g := by
              have := List.get?_eq_some.mp hg
              obtain ⟨hlt, hget⟩ := this
              exact hget ▸ List.get_mem g _ hlt
            exact List.mem_map.mpr ⟨cls, hmem, rfl⟩
          cases hp : cls.2.get? j with
          | none => exact ihMg text g fs (ci + 1) 0 items startPos pre rm hIt
          | some pat =>
            dsimp only
            cases hc : causeHit rm cls.1 j with
            | true => simpa using hIt
            | false =>
              simp only [Bool.false_eq_true, if_false]
              have hRun := ihRn text g
                (if pat.greedy then setFlag fs ci j else fs)
                ci j cls.1 pat [] items startPos pre rm hName
                (fun t ht => absurd ht (List.not_mem_nil t)) hIt
              cases hab : (runNodes f text g
                  (if pat.greedy then setFlag fs ci j else fs)
                  ci j cls.1 pat [] items startPos pre rm).abort with
              | true => simpa [hab] using hRun
              | false =>
                  simp only [hab, Bool.false_eq_true, if_false]
                  exact ihMg text g _ ci (j + 1) _ startPos pre _ hRun
      · intro text g fs ci j name pat acc items pos pre rm hN hAcc hIt
        simp only [runNodes]
        cases items with
        | nil =>
            intro t ht
            exact hAcc t (List.mem_reverse.mp ht)
        | cons item rest =>
          dsimp only
          have hItem : TopOk (g.map Prod.fst) item :=
            hIt item (List.mem_cons_self item rest)
          have hRest : ∀ t ∈ rest, TopOk (g.map Prod.fst) t :=
            fun t ht => hIt t (List.mem_cons_of_mem item ht)
          cases hrb : reachBreak rm pos with
          | true =>
              intro t ht
              rcases List.mem_append.mp ht with h | h
              · exact hAcc t (List.mem_reverse.mp h)
              · exact hIt t h
          | false =>
            simp only [Bool.false_eq_true, if_false]
            by_cases hguard : text.length < pre + acc.length + (item :: rest).length
            · simp only [if_pos hguard]
              intro t ht
              rcases List.mem_append.mp ht with h | h
              · exact hAcc t (List.mem_reverse.mp h)
              · exact hIt t h
            · simp only [if_neg hguard]
              cases hpl : !item.isPlain with
              | true =>
                  simp only [if_pos rfl]
                  exact ihRn text g fs ci j name pat (item :: acc) rest
                    (pos + item.len) pre rm hN
                    (fun t ht => by
                      rcases List.mem_cons.mp ht with h | h
                      · exact h ▸ hItem
                      · exact hAcc t h)
                    hRest
              | false =>
                  simp only [Bool.false_eq_true, if_false]
                  cases hgr : pat.greedy with
                  | false =>
                      simp only [Bool.false_eq_true, if_false]
                      cases he : execFrom pat.re item.str 0 with
                      | none =>
                          dsimp only
                          exact ihRn text g fs ci j name pat (item :: acc) rest
                            (pos + item.len) pre rm hN
                            (fun t ht => by
                              rcases List.mem_cons.mp ht with h | h
                              · exact h ▸ hItem
                              · exact hAcc t h)
                            hRest
                      | some fe =>
                          dsimp only
                          apply ihRn text g fs ci j name pat _ _ _ pre _ hN
                          · intro t ht
                            rcases List.mem_cons.mp ht with h | h
                            · exact h ▸ mkTok_topOk _ f name pat _ hN
                            · by_cases hb : (item.str.take fe.1).isEmpty
                              · rw [if_pos hb] at h
                                exact hAcc t h
                              · rw [if_neg hb] at h
                                rcases List.mem_cons.mp h with h2 | h2
                                · exact h2 ▸ trivial
                                · exact hAcc t h2
                          · intro t ht
                            by_cases ha : (item.str.drop fe.2).isEmpty
                            · rw [if_pos ha] at ht
                              exact hRest t ht
                            · rw [if_neg ha] at ht
                              rcases List.mem_cons.mp ht with h2 | h2
                              · exact h2 ▸ trivial
                              · exact hRest t h2
                  | true =>
                      simp only [if_pos rfl]
                      cases he : execFrom pat.re text pos with
                      | none =>
                          intro t ht
                          rcases List.mem_append.mp ht with h | h
                          · exact hAcc t (List.mem_reverse.mp h)
                          · exact hIt t h
                      | some fe =>
                          dsimp only
                          by_cases hfe : text.length ≤ fe.1
                          · simp only [if_pos hfe]
                            intro t ht
                            rcases List.mem_append.mp ht with h | h
                            · exact hAcc t (List.mem_reverse.mp h)
                            · exact hIt t h
                          · simp only [if_neg hfe]
                            obtain ⟨hw1, hw2⟩ := walkTo_mem fe.1 (item :: rest) acc pos
                            have hWAcc : ∀ t ∈ (walkTo fe.1 acc (item :: rest) pos).1,
                                TopOk (g.map Prod.fst) t := by
                              intro t ht
                              rcases hw1 t ht with h | h
                              · exact hAcc t h
                              · exact hIt t h
                            cases hw : (walkTo fe.1 acc (item :: rest) pos).2.1 with
                            | nil =>
                                intro t ht
                                exact hWAcc t (List.mem_reverse.mp ht)
                            | cons cur rest2 =>
                              dsimp only
                              have hWRem : ∀ t ∈ cur :: rest2, TopOk (g.map Prod.fst) t := by
                                intro t ht
                                exact hIt t (hw2 t (hw ▸ ht))
                              have hCur : TopOk (g.map Prod.fst) cur :=
                                hWRem cur (List.mem_cons_self cur rest2)
                              have hRest2 : ∀ t ∈ rest2, TopOk (g.map Prod.fst) t :=
                                fun t ht => hWRem t (List.mem_cons_of_mem cur ht)
                              obtain ⟨hs1, hs2⟩ := spanTake_mem fe.2 (cur :: rest2)
                                (walkTo fe.1 acc (item :: rest) pos).2.2
                              cases hcp : !cur.isPlain with
                              | true =>
                                  simp only [if_pos rfl]
                                  exact ihRn text g fs ci j name pat (cur ::
                                    (walkTo fe.1 acc (item :: rest) pos).1) rest2
                                    ((walkTo fe.1 acc (item :: rest) pos).2.2 + cur.len)
                                    pre rm hN
                                    (fun t ht => by
                                      rcases List.mem_cons.mp ht with h | h
                                      · exact h ▸ hCur
                                      · exact hWAcc t h)
                                    hRest2
                              | false =>
                                  simp only [Bool.false_eq_true, if_false]
                                  have hItemsW : ∀ t ∈ (mkTok f name pat
                                      (sliceL text fe.1 fe.2) ::
                                      (if (sliceL text fe.2 (spanTake fe.2 (cur :: rest2)
                                        (walkTo fe.1 acc (item :: rest) pos).2.2).2.2).isEmpty
                                       then (spanTake fe.2 (cur :: rest2)
                                        (walkTo fe.1 acc (item :: rest) pos).2.2).2.1
                                       else .plain (sliceL text fe.2 (spanTake fe.2 (cur :: rest2)
                                        (walkTo fe.1 acc (item :: rest) pos).2.2).2.2) ::
                                        (spanTake fe.2 (cur :: rest2)
                                        (walkTo fe.1 acc (item :: rest) pos).2.2).2.1)),
                                      TopOk (g.map Prod.fst) t := by
                                    intro t ht
                                    rcases List.mem_cons.mp ht with h | h
                                    · exact h ▸ mkTok_topOk _ f name pat _ hN
                                    · by_cases ha : (sliceL text fe.2 (spanTake fe.2 (cur :: rest2)
                                        (walkTo fe.1 acc (item :: rest) pos).2.2).2.2).isEmpty
                                      · rw [if_pos ha] at h
                                        exact hWRem t (hs2 t h)
                                      · rw [if_neg ha] at h
                                        rcases List.mem_cons.mp h with h2 | h2
                                        · exact h2 ▸ trivial
                                        · exact hWRem t (hs2 t h2)
                                  have hAcc2 : ∀ t ∈ (if (sliceL text
                                      (walkTo fe.1 acc (item :: rest) pos).2.2 fe.1).isEmpty
                                      then (walkTo fe.1 acc (item :: rest) pos).1
                                      else .plain (sliceL text
                                        (walkTo fe.1 acc (item :: rest) pos).2.2 fe.1) ::
                                        (walkTo fe.1 acc (item :: rest) pos).1),
                                      TopOk (g.map Prod.fst) t := by
                                    intro t ht
                                    by_cases hb : (sliceL text
                                        (walkTo fe.1 acc (item :: rest) pos).2.2 fe.1).isEmpty
                                    · rw [if_pos hb] at ht
                                      exact hWAcc t ht
                                    · rw [if_neg hb] at ht
                                      rcases List.mem_cons.mp ht with h2 | h2
                                      · exact h2 ▸ trivial
                                      · exact hWAcc t h2
                                  by_cases hrc : 1 < (spanTake fe.2 (cur :: rest2)
                                      (walkTo fe.1 acc (item :: rest) pos).2.2).1.length
                                  · simp only [if_pos hrc]
                                    apply ihRn text g _ ci j name pat _ _ _ pre _ hN hAcc2
                                    exact ihMg text g _ 0 0 _ _ _ _ hItemsW
                                  · simp only [if_neg hrc]
                                    exact ihRn text g fs ci j name pat _ _ _ pre _ hN hAcc2 hItemsW

/-- Boolean form of TopOk. -/
def topOkB (names : List String) : Tok → Bool
  | .plain _ => true
  | .simple c _ => names.contains c
  | .nested c _ _ => names.contains c

/-- The Boolean form follows from TopOk. -/
theorem topOkB_of_topOk (names : List String) (t : Tok) (h : TopOk names t) :
    topOkB names t = true := by
  cases t with
  | plain s => rfl
  | simple c s => exact List.elem_eq_true_of_mem h
  | nested c ts m => exact List.elem_eq_true_of_mem h

/-- C5: tokenizing never fails and non-matching text stays plain: for every
input the tokenizer (a total function of the model) returns a token list in
which every node is either an untokenized plain string or a token bearing a
class declared in the grammar; on the empty string, whitespace-only text and
plain prose the output is the expected well-formed list. -/
theorem c5_total_and_plain_fallback :
    (∀ s : String, (tokenizeToks PrismRac.racGrammarObj s).all
        (topOkB (PrismRac.racGrammar.map Prod.fst)) = true) ∧
    (∀ s : String, (tokenizeToks PrismCatala.catalaGrammarObj s).all
        (topOkB (PrismCatala.catalaGrammar.map Prod.fst)) = true) ∧
    (∀ s : String, (tokenizeToks PrismRac.catalaGrammarObj s).all
        (topOkB (PrismRac.catalaGrammar.map Prod.fst)) = true) ∧
    (tokenizeToks PrismRac.racGrammarObj "").all Tok.isPlain = true ∧
    (tokenizeToks PrismRac.racGrammarObj "   \n\n  ").all Tok.isPlain = true ∧
    (tokenizeToks PrismCatala.catalaGrammarObj "   \n\n  ").all
      Tok.isPlain = true ∧
    flattenTokens (tokenizeToks PrismCatala.catalaGrammarObj
        "This is just some legal text without any code.")
      = [("plain", "This is just some legal text without any code"),
         ("punctuation", ".")] := by
  refine ⟨?_, ?_, ?_, by decide, by decide, by decide, by decide⟩
  all_goals
    intro s
    rw [List.all_eq_true]
    intro t ht
    exact topOkB_of_topOk _ t (((engine_classes (bigFuel s)).1 s.data _ _
      0 0 [.plain s.data] 0 0 none
      (fun u hu => by
        rcases List.mem_cons.mp hu with h | h
        · exact h ▸ trivial
        · exact absurd h (List.not_mem_nil u))) t ht)

/-!
## Tokenization preserves the input text

Every node of the token list stands for a slice of the input; splits and
wraps rearrange the slices without losing a character.
-/

/-- The text a node stands for (a Token stands for its matched string). -/
def Tok.text : Tok → List Char
  | .plain s => s
  | .simple _ c => c
  | .nested _ _ m => m

theorem Tok.text_length (t : Tok) : t.text.length = t.len := by
  cases t <;> rfl

/-- Concatenated text of a node list. -/
def itemsText (l : List Tok) : List Char :=
  l.foldr (fun t acc => t.text ++ acc) []

theorem itemsText_cons (t : Tok) (l : List Tok) :
    itemsText (t :: l) = t.text ++ itemsText l := rfl

theorem itemsText_append (a b : List Tok) :
    itemsText (a ++ b) = itemsText a ++ itemsText b := by
  induction a with
  | nil => rfl
  | cons t a ih => simp [itemsText_cons, ih, List.append_assoc]

/-- A token tree is coherent when the content of every nested token
concatenates back to its matched string. -/
inductive Coh : Tok → Prop where
  | plain (s : List Char) : Coh (.plain s)
  | simple (c : String) (s : List Char) : Coh (.simple c s)
  | nested (c : String) (ts : List Tok) (m : List Char) :
      (∀ t ∈ ts, Coh t) → itemsText ts = m → Coh (.nested c ts m)

/-- The contents of the produced tokens, recursively: for a nested token
the concatenated contents of its parts (what flattening preserves). -/
def Tok.contentText : Tok → List Char
  | .plain s => s
  | .simple _ c => c
  | .nested _ ts _ => ts.attach.foldr (fun t acc => t.1.contentText ++ acc) []
termination_by t => sizeOf t
decreasing_by
  simp_wf
  have := List.sizeOf_lt_of_mem t.2
  omega

/-- Concatenated contents of a node list. -/
def contentConcat (l : List Tok) : List Char :=
  l.foldr (fun t acc => t.contentText ++ acc) []

theorem contentText_plain (s : List Char) : (Tok.plain s).contentText = s := by
  simp [Tok.contentText]

theorem contentText_simple (c : String) (s : List Char) :
    (Tok.simple c s).contentText = s := by
  simp [Tok.contentText]

theorem contentText_nested (c : String) (ts : List Tok) (m : List Char) :
    (Tok.nested c ts m).contentText = contentConcat ts := by
  rw [Tok.contentText]
  unfold contentConcat
  conv_rhs => rw [← List.attach_map_subtype_val ts]
  rw [List.foldr_map]

/-- For a coherent token, contents and matched text agree. -/
theorem contentText_eq_text_of_coh (t : Tok) (h : Coh t) :
    t.contentText = t.text := by
  induction h with
  | plain s => rw [contentText_plain]; rfl
  | simple c s => rw [contentText_simple]; rfl
  | nested c ts m hts hsum ih =>
      rw [contentText_nested]
      show contentConcat ts = (Tok.nested c ts m).text
      rw [show (Tok.nested c ts m).text = m from rfl, ← hsum]
      clear hsum
      induction ts with
      | nil => rfl
      | cons u l ihl =>
          show u.contentText ++ contentConcat l = u.text ++ itemsText l
          rw [ih u (List.mem_cons_self u l)]
          congr 1
          exact ihl (fun t ht => hts t (List.mem_cons_of_mem u ht))
            (fun t ht => ih t (List.mem_cons_of_mem u ht))

/-- On a coherent list, contents concatenate to node texts. -/
theorem contentConcat_eq_itemsText (l : List Tok) (h : ∀ t ∈ l, Coh t) :
    contentConcat l = itemsText l := by
  induction l with
  | nil => rfl
  | cons t l ih =>
      show t.contentText ++ contentConcat l = t.text ++ itemsText l
      rw [contentText_eq_text_of_coh t (h t (List.mem_cons_self t l)),
        ih (fun u hu => h u (List.mem_cons_of_mem t hu))]

/-- Candidate ends lie between the start position and the end of the
string. -/
theorem cands_bounds :
    ∀ (fuel : Nat) (s : List Char) (r : Regex) (i : Nat), i ≤ s.length →
      ∀ e ∈ cands s fuel r i, i ≤ e ∧ e ≤ s.length := by
  intro fuel
  induction fuel with
  | zero =>
      intro s r i hi e he
      simp [cands] at he
  | succ f ih =>
      intro s r i hi e he
      cases r with
      | eps =>
          simp [cands] at he
          omega
      | ch c =>
          simp only [cands] at he
          cases hget : s.get? i with
          | none => rw [hget] at he; simp at he
          | some d =>
              rw [hget] at he
              have hlt : i < s.length := (List.get?_eq_some.mp hget).1
              by_cases hd : d == c
              · simp [hd] at he
                omega
              · simp [hd] at he
      | chi c =>
          simp only [cands] at he
          cases hget : s.get? i with
          | none => rw [hget] at he; simp at he
          | some d =>
              rw [hget] at he
              have hlt : i < s.length := (List.get?_eq_some.mp hget).1
              by_cases hd : foldCase d.toNat == foldCase c.toNat
              · simp [hd] at he
                omega
              · simp [hd] at he
      | cls neg its =>
          simp only [cands] at he
          cases hget : s.get? i with
          | none => rw [hget] at he; simp at he
          | some d =>
              rw [hget] at he
              have hlt : i < s.length := (List.get?_eq_some.mp hget).1
              by_cases hd : clsTest neg its d
              · simp [hd] at he
                omega
              · simp [hd] at he
      | dot =>
          simp only [cands] at he
          cases hget : s.get? i with
          | none => rw [hget] at he; simp at he
          | some d =>
              rw [hget] at he
              have hlt : i < s.length := (List.get?_eq_some.mp hget).1
              by_cases hd : d == '\n'
              · simp [hd] at he
              · simp [hd] at he
                omega
      | cat a b =>
          simp only [cands, List.mem_flatMap] at he
          obtain ⟨m, hm, he2⟩ := he
          obtain ⟨h1, h2⟩ := ih s a i hi m hm
          obtain ⟨h3, h4⟩ := ih s b m h2 e he2
          omega
      | alt a b =>
          simp only [cands, List.mem_append] at he
          rcases he with h | h
          · exact ih s a i hi e h
          · exact ih s b i hi e h
      | star r =>
          simp only [cands, List.mem_append, List.mem_flatMap,
            List.mem_filter, List.mem_singleton] at he
          rcases he with ⟨e1, ⟨he1, -⟩, he2⟩ | rfl
          · obtain ⟨h1, h2⟩ := ih s r i hi e1 he1
            obtain ⟨h3, h4⟩ := ih s (.star r) e1 h2 e he2
            omega
          · omega
      | starL r =>
          simp only [cands, List.mem_cons, List.mem_flatMap,
            List.mem_filter] at he
          rcases he with rfl | ⟨e1, ⟨he1, -⟩, he2⟩
          · omega
          · obtain ⟨h1, h2⟩ := ih s r i hi e1 he1
            obtain ⟨h3, h4⟩ := ih s (.starL r) e1 h2 e he2
            omega
      | opt r =>
          simp only [cands, List.mem_append, List.mem_singleton] at he
          rcases he with h | rfl
          · exact ih s r i hi e h
          · omega
      | bol m =>
          have : e = i := by
            simp only [cands] at he
            split at he
            · simpa using he
            · split at he
              · split at he
                · split at he
                  · simpa using he
                  · simp at he
                · simp at he
              · simp at he
          omega
      | eol m =>
          have : e = i := by
            simp only [cands] at he
            split at he
            · simpa using he
            · split at he
              · split at he
                · split at he
                  · simpa using he
                  · simp at he
                · simp at he
              · simp at he
          omega
      | wb =>
          have : e = i := by
            simp only [cands] at he
            split at he
            · simpa using he
            · simp at he
          omega
      | look r =>
          have : e = i := by
            simp only [cands] at he
            split at he
            · simp at he
            · simpa using he
          omega
      | lookb r =>
          have : e = i := by
            simp only [cands] at he
            split at he
            · simpa using he
            · simp at he
          omega

/-- searchFrom bounds. -/
theorem searchFrom_bounds :
    ∀ (fuel : Nat) (r : Regex) (s : List Char) (i : Nat), i ≤ s.length →
      ∀ a e, searchFrom r s fuel i = some (a, e) →
        i ≤ a ∧ a ≤ e ∧ e ≤ s.length := by
  intro fuel
  induction fuel with
  | zero =>
      intro r s i hi a e h
      simp [searchFrom] at h
  | succ f ih =>
      intro r s i hi a e h
      simp only [searchFrom] at h
      cases hm : matchEndAt r s i with
      | some e0 =>
          rw [hm] at h
          simp only [Option.some.injEq, Prod.mk.injEq] at h
          obtain ⟨h1, h2⟩ := h
          subst h1
          subst h2
          have he0 : e0 ∈ cands s ((r.size + 2) * (s.length + 2)) r i := by
            unfold matchEndAt at hm
            exact List.mem_of_mem_head? (Option.mem_def.mpr hm)
          exact ⟨le_refl i, (cands_bounds _ s r i hi e0 he0).1,
            (cands_bounds _ s r i hi e0 he0).2⟩
      | none =>
          rw [hm] at h
          by_cases hlt : i < s.length
          · simp only [if_pos hlt] at h
            obtain ⟨h1, h2, h3⟩ := ih r s (i + 1) (by omega) a e h
            exact ⟨by omega, h2, h3⟩
          · simp [hlt] at h

/-- execFrom bounds. -/
theorem execFrom_bounds (r : Regex) (s : List Char) (start a e : Nat)
    (h : execFrom r s start = some (a, e)) :
    start ≤ a ∧ a ≤ e ∧ e ≤ s.length := by
  by_cases hs : start ≤ s.length
  · exact searchFrom_bounds _ r s start hs a e h
  · exfalso
    unfold execFrom at h
    rw [Nat.sub_eq_zero_of_le (by omega)] at h
    simp [searchFrom] at h

/-- slice then the rest of the drop recompose. -/
theorem sliceL_append_drop (l : List Char) (a b : Nat) (hab : a ≤ b) :
    sliceL l a b ++ l.drop b = l.drop a := by
  unfold sliceL
  have hb : l.drop b = (l.drop a).drop (b - a) := by
    rw [List.drop_drop]
    congr 1
    omega
  rw [hb, List.take_append_drop]

/-- Dropping the length of a take is dropping the take's bound. -/
theorem drop_length_take (l : List Char) (k : Nat) :
    l.drop (l.take k).length = l.drop k := by
  rw [List.length_take]
  rcases le_or_lt k l.length with h | h
  · rw [min_eq_left h]
  · rw [min_eq_right (le_of_lt h)]
    rw [List.drop_eq_nil_iff.mpr (le_refl _), List.drop_eq_nil_iff.mpr (by omega)]

/-- Length of a slice with its right end in range. -/
theorem sliceL_length (l : List Char) (a b : Nat) (hab : a ≤ b)
    (hb : b ≤ l.length) : (sliceL l a b).length = b - a := by
  unfold sliceL
  rw [List.length_take, List.length_drop]
  omega

/-- Positional specification of walkTo. -/
theorem walkTo_spec (text : List Char) (tgt : Nat) :
    ∀ (items acc : List Tok) (pos : Nat),
      itemsText items = text.drop pos → pos ≤ tgt →
      itemsText (walkTo tgt acc items pos).2.1
          = text.drop (walkTo tgt acc items pos).2.2 ∧
        pos ≤ (walkTo tgt acc items pos).2.2 ∧
        (walkTo tgt acc items pos).2.2 ≤ tgt ∧
        itemsText (walkTo tgt acc items pos).1.reverse ++
            text.drop (walkTo tgt acc items pos).2.2
          = itemsText acc.reverse ++ text.drop pos := by
  intro items
  induction items with
  | nil =>
      intro acc pos h hle
      exact ⟨h, le_refl pos, hle, rfl⟩
  | cons hd tl ih =>
      intro acc pos h hle
      unfold walkTo
      by_cases hstep : pos + hd.len ≤ tgt
      · simp only [if_pos hstep]
        have hcons : hd.text ++ itemsText tl = text.drop pos := by
          rw [← itemsText_cons]
          exact h
        have hrest : itemsText tl = text.drop (pos + hd.len) := by
          have h2 : itemsText tl = (text.drop pos).drop hd.text.length := by
            rw [← hcons, List.drop_left]
          rw [h2, Tok.text_length, List.drop_drop]
        obtain ⟨h1, h2, h3, h4⟩ := ih (hd :: acc) (pos + hd.len) hrest hstep
        refine ⟨h1, by omega, h3, ?_⟩
        rw [h4]
        have hsing : itemsText [hd] = hd.text := by
          rw [itemsText_cons]
          rw [show itemsText ([] : List Tok) = [] from rfl, List.append_nil]
        have hx : itemsText ((hd :: acc).reverse)
            = itemsText acc.reverse ++ hd.text := by
          rw [List.reverse_cons, itemsText_append, hsing]
        rw [hx, List.append_assoc, ← hrest, hcons]
      · simp only [if_neg hstep]
        exact ⟨h, le_refl pos, hle, by trivial⟩

/-- Positional specification of spanTake. -/
theorem spanTake_spec (text : List Char) (to_ : Nat) :
    ∀ (l : List Tok) (p : Nat),
      itemsText l = text.drop p →
      itemsText (spanTake to_ l p).2.1 = text.drop (spanTake to_ l p).2.2 ∧
        p ≤ (spanTake to_ l p).2.2 ∧
        itemsText (spanTake to_ l p).1 ++ text.drop (spanTake to_ l p).2.2
          = text.drop p ∧
        (to_ ≤ (spanTake to_ l p).2.2 ∨ (spanTake to_ l p).2.1 = []) := by
  intro l
  induction l with
  | nil =>
      intro p h
      refine ⟨h, le_refl p, ?_, Or.inr rfl⟩
      show itemsText [] ++ text.drop p = text.drop p
      simp [itemsText]
  | cons k rest ih =>
      intro p h
      unfold spanTake
      by_cases hc : p < to_ || k.isPlain
      · simp only [if_pos hc]
        have hcons : k.text ++ itemsText rest = text.drop p := by
          rw [← itemsText_cons]
          exact h
        have hrest : itemsText rest = text.drop (p + k.len) := by
          have h2 : itemsText rest = (text.drop p).drop k.text.length := by
            rw [← hcons, List.drop_left]
          rw [h2, Tok.text_length, List.drop_drop]
        obtain ⟨h1, h2, h3, h4⟩ := ih (p + k.len) hrest
        refine ⟨h1, by omega, ?_, ?_⟩
        · rw [itemsText_cons, List.append_assoc, h3, ← hrest, hcons]
        · rcases h4 with h4 | h4
          · exact Or.inl h4
          · exact Or.inr h4
      · simp only [if_neg hc]
        have hto : to_ ≤ p := by
          by_contra hlt
          have hplt : p < to_ := by omega
          exact hc (by simp [hplt])
        refine ⟨h, le_refl p, ?_, Or.inl hto⟩
        show itemsText [] ++ text.drop p = text.drop p
        simp [itemsText]

/-- The tail of a positioned node list is positioned after the head. -/
theorem rest_drop (text : List Char) (t : Tok) (rest : List Tok) (pos : Nat)
    (h : itemsText (t :: rest) = text.drop pos) :
    itemsText rest = text.drop (pos + t.len) := by
  have hcons : t.text ++ itemsText rest = text.drop pos := by
    rw [← itemsText_cons]
    exact h
  have h2 : itemsText rest = (text.drop pos).drop t.text.length := by
    rw [← hcons, List.drop_left]
  rw [h2, Tok.text_length, List.drop_drop]

/-- Leaves that return the rebuilt suffix unchanged preserve its text. -/
theorem break_leaf_concat (acc items : List Tok) (text : List Char) (pos : Nat)
    (hItems : itemsText items = text.drop pos) :
    itemsText (acc.reverse ++ items) = itemsText acc.reverse ++ text.drop pos := by
  rw [itemsText_append, hItems]

/-- Coherence of a rebuilt suffix. -/
theorem coh_rev_append (acc items : List Tok)
    (hA : ∀ t ∈ acc, Coh t) (hI : ∀ t ∈ items, Coh t) :
    ∀ t ∈ acc.reverse ++ items, Coh t := by
  intro t ht
  rcases List.mem_append.mp ht with h | h
  · exact hA t (List.mem_reverse.mp h)
  · exact hI t h

/-- A plain node's source string is its text. -/
theorem str_eq_text_of_plain (t : Tok) (h : t.isPlain = true) :
    t.str = t.text := by
  cases t with
  | plain s => rfl
  | simple c s => simp [Tok.isPlain] at h
  | nested c ts m => simp [Tok.isPlain] at h

/-- Reversed cons inside itemsText. -/
theorem itemsText_reverse_cons (t : Tok) (l : List Tok) :
    itemsText ((t :: l).reverse) = itemsText l.reverse ++ t.text := by
  rw [List.reverse_cons, itemsText_append, itemsText_cons]
  rw [show itemsText ([] : List Tok) = [] from rfl, List.append_nil]

theorem engine_concat (fuel : Nat) :
    (∀ text g fs ci j items startPos pre rm,
      itemsText items = text.drop startPos →
      (∀ t ∈ items, Coh t) →
      itemsText (mgAux fuel text g fs ci j items startPos pre rm).items
          = text.drop startPos ∧
        ∀ t ∈ (mgAux fuel text g fs ci j items startPos pre rm).items, Coh t) ∧
    (∀ text g fs ci j name pat acc items pos pre rm,
      itemsText items = text.drop pos →
      (∀ t ∈ items, Coh t) →
      (∀ t ∈ acc, Coh t) →
      itemsText (runNodes fuel text g fs ci j name pat acc items pos pre rm).items
          = itemsText acc.reverse ++ text.drop pos ∧
        ∀ t ∈ (runNodes fuel text g fs ci j name pat acc items pos pre rm).items,
          Coh t) ∧
    (∀ (name : String) (pat : Pat) (ms : List Char),
      (mkTok fuel name pat ms).text = ms ∧ Coh (mkTok fuel name pat ms)) := by
  induction fuel with
  | zero =>
      refine ⟨?_, ?_, ?_⟩
      · intro text g fs ci j items startPos pre rm hT hC
        exact ⟨hT, hC⟩
      · intro text g fs ci j name pat acc items pos pre rm hT hC hA
        exact ⟨break_leaf_concat acc items text pos hT,
          coh_rev_append acc items hA hC⟩
      · intro name pat ms
        unfold mkTok
        cases pat.inside with
        | none => exact ⟨rfl, Coh.simple name ms⟩
        | some ig =>
            refine ⟨rfl, Coh.nested name [.plain ms] ms ?_ ?_⟩
            · intro t ht
              rcases List.mem_cons.mp ht with h | h
              · exact h ▸ Coh.plain ms
              · exact absurd h (List.not_mem_nil t)
            · rw [itemsText_cons,
                show itemsText ([] : List Tok) = [] from rfl, List.append_nil]
              rfl
  | succ f ih =>
      obtain ⟨ihMg, ihRn, ihMk⟩ := ih
      refine ⟨?_, ?_, ?_⟩
      · intro text g fs ci j items startPos pre rm hT hC
        simp only [mgAux]
        cases hg : g.get? ci with
        | none => exact ⟨hT, hC⟩
        | some cls =>
          dsimp only
          cases hp : cls.2.get? j with
          | none => exact ihMg text g fs (ci + 1) 0 items startPos pre rm hT hC
          | some pat =>
            dsimp only
            cases hc : causeHit rm cls.1 j with
            | true => exact ⟨hT, hC⟩
            | false =>
              simp only [Bool.false_eq_true, if_false]
              obtain ⟨hRT, hRC⟩ := ihRn text g
                (if pat.greedy then setFlag fs ci j else fs)
                ci j cls.1 pat [] items startPos pre rm hT hC
                (fun t ht => absurd ht (List.not_mem_nil t))
              have hRT2 : itemsText (runNodes f text g
                  (if pat.greedy then setFlag fs ci j else fs)
                  ci j cls.1 pat [] items startPos pre rm).items
                  = text.drop startPos :=
                hRT.trans (by rw [show itemsText (List.reverse ([] : List Tok))
                  = [] from rfl, List.nil_append])
              cases hab : (runNodes f text g
                  (if pat.greedy then setFlag fs ci j else fs)
                  ci j cls.1 pat [] items startPos pre rm).abort with
              | true =>
                  simp only [hab, if_pos rfl]
                  exact ⟨hRT2, hRC⟩
              | false =>
                  simp only [hab, Bool.false_eq_true, if_false]
                  exact ihMg text g _ ci (j + 1) _ startPos pre _ hRT2 hRC
      · intro text g fs ci j name pat acc items pos pre rm hT hC hA
        simp only [runNodes]
        cases items with
        | nil =>
            dsimp only
            have hdrop : text.drop pos = [] := by
              rw [← hT]
              rfl
            refine ⟨?_, fun t ht => hA t (List.mem_reverse.mp ht)⟩
            rw [hdrop, List.append_nil]
        | cons item rest =>
          dsimp only
          have hItemC : Coh item := hC item (List.mem_cons_self item rest)
          have hRestC : ∀ t ∈ rest, Coh t :=
            fun t ht => hC t (List.mem_cons_of_mem item ht)
          have hRestT : itemsText rest = text.drop (pos + item.len) :=
            rest_drop text item rest pos hT
          have hSkipAccC : ∀ t ∈ item :: acc, Coh t := fun t ht => by
            rcases List.mem_cons.mp ht with h | h
            · exact h ▸ hItemC
            · exact hA t h
          have hSkipChain :
              itemsText (item :: acc).reverse ++ text.drop (pos + item.len)
                = itemsText acc.reverse ++ text.drop pos := by
            rw [itemsText_reverse_cons, List.append_assoc, ← hRestT,
              show item.text ++ itemsText rest
                = itemsText (item :: rest) from rfl, hT]
          cases hrb : reachBreak rm pos with
          | true =>
              exact ⟨break_leaf_concat acc (item :: rest) text pos hT,
                coh_rev_append acc (item :: rest) hA hC⟩
          | false =>
            simp only [Bool.false_eq_true, if_false]
            by_cases hguard : text.length < pre + acc.length + (item :: rest).length
            · simp only [if_pos hguard]
              exact ⟨break_leaf_concat acc (item :: rest) text pos hT,
                coh_rev_append acc (item :: rest) hA hC⟩
            · simp only [if_neg hguard]
              cases hpl : !item.isPlain with
              | true =>
                  simp only [if_pos rfl]
                  obtain ⟨hRT, hRC⟩ := ihRn text g fs ci j name pat (item :: acc)
                    rest (pos + item.len) pre rm hRestT hRestC hSkipAccC
                  exact ⟨hRT.trans hSkipChain, hRC⟩
              | false =>
                  simp only [Bool.false_eq_true, if_false]
                  have hplain : item.isPlain = true := by
                    cases hip : item.isPlain
                    · rw [hip] at hpl
                      simp at hpl
                    · rfl
                  have hstr : item.str = item.text :=
                    str_eq_text_of_plain item hplain
                  cases hgr : pat.greedy with
                  | false =>
                      simp only [Bool.false_eq_true, if_false]
                      cases he : execFrom pat.re item.str 0 with
                      | none =>
                          dsimp only
                          obtain ⟨hRT, hRC⟩ := ihRn text g fs ci j name pat
                            (item :: acc) rest (pos + item.len) pre rm hRestT
                            hRestC hSkipAccC
                          exact ⟨hRT.trans hSkipChain, hRC⟩
                      | some fe =>
                          dsimp only
                          obtain ⟨-, hf12, hf2l⟩ :=
                            execFrom_bounds pat.re item.str 0 fe.1 fe.2 he
                          have hWT : (mkTok f name pat
                              (sliceL item.str fe.1 fe.2)).text
                              = sliceL item.str fe.1 fe.2 :=
                            (ihMk name pat _).1
                          have hWLen : (mkTok f name pat
                              (sliceL item.str fe.1 fe.2)).len
                              = fe.2 - fe.1 := by
                            rw [← Tok.text_length, hWT,
                              sliceL_length item.str fe.1 fe.2 hf12 hf2l]
                          have hBLen : (item.str.take fe.1).length = fe.1 := by
                            rw [List.length_take]
                            omega
                          have hDropPos : text.drop pos
                              = item.str ++ itemsText rest := by
                            rw [← hT, itemsText_cons, hstr]
                          have hPosEq : pos + (item.str.take fe.1).length +
                              (mkTok f name pat (sliceL item.str fe.1 fe.2)).len
                              = pos + fe.2 := by
                            rw [hBLen, hWLen]
                            omega
                          have hDropSplit : text.drop (pos + fe.2)
                              = item.str.drop fe.2 ++ itemsText rest := by
                            rw [← List.drop_drop, hDropPos,
                              List.drop_append_of_le_length hf2l]
                          have hItems2 : itemsText
                              (if (item.str.drop fe.2).isEmpty then rest
                               else .plain (item.str.drop fe.2) :: rest)
                              = text.drop (pos + (item.str.take fe.1).length +
                                  (mkTok f name pat
                                    (sliceL item.str fe.1 fe.2)).len) := by
                            rw [hPosEq, hDropSplit]
                            by_cases hae : (item.str.drop fe.2).isEmpty
                            · rw [if_pos hae, List.isEmpty_iff.mp hae,
                                List.nil_append]
                            · rw [if_neg hae, itemsText_cons]
                              rfl
                          have hItems2C : ∀ t ∈
                              (if (item.str.drop fe.2).isEmpty then rest
                               else .plain (item.str.drop fe.2) :: rest),
                              Coh t := by
                            intro t ht
                            by_cases hae : (item.str.drop fe.2).isEmpty
                            · rw [if_pos hae] at ht
                              exact hRestC t ht
                            · rw [if_neg hae] at ht
                              rcases List.mem_cons.mp ht with h | h
                              · exact h ▸ Coh.plain _
                              · exact hRestC t h
                          have hAcc2C : ∀ t ∈
                              (mkTok f name pat (sliceL item.str fe.1 fe.2) ::
                               (if (item.str.take fe.1).isEmpty then acc
                                else .plain (item.str.take fe.1) :: acc)),
                              Coh t := by
                            intro t ht
                            rcases List.mem_cons.mp ht with h | h
                            · exact h ▸ (ihMk name pat _).2
                            · by_cases hbe : (item.str.take fe.1).isEmpty
                              · rw [if_pos hbe] at h
                                exact hA t h
                              · rw [if_neg hbe] at h
                                rcases List.mem_cons.mp h with h2 | h2
                                · exact h2 ▸ Coh.plain _
                                · exact hA t h2
                          obtain ⟨hRT, hRC⟩ := ihRn text g fs ci j name pat
                            (mkTok f name pat (sliceL item.str fe.1 fe.2) ::
                              (if (item.str.take fe.1).isEmpty then acc
                               else .plain (item.str.take fe.1) :: acc))
                            (if (item.str.drop fe.2).isEmpty then rest
                             else .plain (item.str.drop fe.2) :: rest)
                            (pos + (item.str.take fe.1).length +
                              (mkTok f name pat (sliceL item.str fe.1 fe.2)).len)
                            pre (bumpReach rm (pos + item.str.length))
                            hItems2 hItems2C hAcc2C
                          refine ⟨hRT.trans ?_, hRC⟩
                          have hAccB : itemsText
                              ((if (item.str.take fe.1).isEmpty then acc
                                else .plain (item.str.take fe.1) :: acc)).reverse
                              = itemsText acc.reverse ++ item.str.take fe.1 := by
                            by_cases hbe : (item.str.take fe.1).isEmpty
                            · rw [if_pos hbe, List.isEmpty_iff.mp hbe,
                                List.append_nil]
                            · rw [if_neg hbe, itemsText_reverse_cons]
                              rfl
                          rw [itemsText_reverse_cons, hAccB, hWT, hPosEq,
                            hDropSplit, hDropPos]
                          have hSplit : item.str.take fe.1 ++
                              (sliceL item.str fe.1 fe.2 ++
                                (item.str.drop fe.2 ++ itemsText rest))
                              = item.str ++ itemsText rest := by
                            rw [← List.append_assoc, ← List.append_assoc]
                            congr 1
                            unfold sliceL
                            have h1 : item.str.take fe.1 ++
                                (item.str.drop fe.1).take (fe.2 - fe.1)
                                = item.str.take fe.2 := by
                              rw [← List.take_add]
                              congr 1
                              omega
                            rw [h1, List.take_append_drop]
                          rw [List.append_assoc, List.append_assoc, hSplit]
                  | true =>
                      simp only [if_pos rfl]
                      cases he : execFrom pat.re text pos with
                      | none =>
                          exact ⟨break_leaf_concat acc (item :: rest) text pos hT,
                            coh_rev_append acc (item :: rest) hA hC⟩
                      | some fe =>
                          dsimp only
                          by_cases hfeB : text.length ≤ fe.1
                          · simp only [if_pos hfeB]
                            exact ⟨break_leaf_concat acc (item :: rest) text pos hT,
                              coh_rev_append acc (item :: rest) hA hC⟩
                          · simp only [if_neg hfeB]
                            obtain ⟨hpf, hff, hfl⟩ :=
                              execFrom_bounds pat.re text pos fe.1 fe.2 he
                            obtain ⟨hw1, hw2, hw3, hw4⟩ :=
                              walkTo_spec text fe.1 (item :: rest) acc pos hT hpf
                            obtain ⟨hwm1, hwm2⟩ :=
                              walkTo_mem fe.1 (item :: rest) acc pos
                            have hWAccC : ∀ t ∈
                                (walkTo fe.1 acc (item :: rest) pos).1, Coh t := by
                              intro t ht
                              rcases hwm1 t ht with h | h
                              · exact hA t h
                              · exact hC t h
                            cases hw : (walkTo fe.1 acc (item :: rest) pos).2.1 with
                            | nil =>
                                dsimp only
                                have hdrop : text.drop
                                    (walkTo fe.1 acc (item :: rest) pos).2.2
                                    = [] := by
                                  rw [← hw1, hw]
                                  rfl
                                refine ⟨?_, fun t ht =>
                                  hWAccC t (List.mem_reverse.mp ht)⟩
                                have hfin : itemsText
                                    (walkTo fe.1 acc (item :: rest)
                                      pos).1.reverse
                                    = itemsText acc.reverse ++ text.drop pos := by
                                  rw [← hw4, hdrop, List.append_nil]
                                exact hfin
                            | cons cur rest2 =>
                              dsimp only
                              have hCR : itemsText (cur :: rest2)
                                  = text.drop
                                    (walkTo fe.1 acc (item :: rest) pos).2.2 := by
                                rw [← hw, hw1]
                              have hCRC : ∀ t ∈ cur :: rest2, Coh t := by
                                intro t ht
                                exact hC t (hwm2 t (hw ▸ ht))
                              have hCurC : Coh cur :=
                                hCRC cur (List.mem_cons_self cur rest2)
                              have hRest2C : ∀ t ∈ rest2, Coh t :=
                                fun t ht => hCRC t (List.mem_cons_of_mem cur ht)
                              cases hcp : !cur.isPlain with
                              | true =>
                                  simp only [if_pos rfl]
                                  have hRest2T : itemsText rest2 = text.drop
                                      ((walkTo fe.1 acc (item :: rest) pos).2.2 +
                                        cur.len) :=
                                    rest_drop text cur rest2 _ hCR
                                  obtain ⟨hRT, hRC⟩ := ihRn text g fs ci j name
                                    pat (cur ::
                                      (walkTo fe.1 acc (item :: rest) pos).1)
                                    rest2
                                    ((walkTo fe.1 acc (item :: rest) pos).2.2 +
                                      cur.len) pre rm hRest2T hRest2C
                                    (fun t ht => by
                                      rcases List.mem_cons.mp ht with h | h
                                      · exact h ▸ hCurC
                                      · exact hWAccC t h)
                                  refine ⟨hRT.trans ?_, hRC⟩
                                  rw [itemsText_reverse_cons, List.append_assoc,
                                    ← hRest2T,
                                    show cur.text ++ itemsText rest2
                                      = itemsText (cur :: rest2) from rfl,
                                    hCR, hw4]
                              | false =>
                                  simp only [Bool.false_eq_true, if_false]
                                  obtain ⟨hs1, hs2, hs3, hs4⟩ :=
                                    spanTake_spec text fe.2 (cur :: rest2)
                                      (walkTo fe.1 acc (item :: rest) pos).2.2 hCR
                                  obtain ⟨hsm1, hsm2⟩ :=
                                    spanTake_mem fe.2 (cur :: rest2)
                                      (walkTo fe.1 acc (item :: rest) pos).2.2
                                  have hf2sp : fe.2 ≤ (spanTake fe.2 (cur :: rest2)
                                      (walkTo fe.1 acc (item :: rest) pos).2.2).2.2 := by
                                    rcases hs4 with h | h
                                    · exact h
                                    · rw [h] at hs1
                                      have : text.length ≤ (spanTake fe.2 (cur :: rest2)
                                          (walkTo fe.1 acc (item :: rest) pos).2.2).2.2 :=
                                        List.drop_eq_nil_iff.mp hs1.symm
                                      omega
                                  have hWT : (mkTok f name pat
                                      (sliceL text fe.1 fe.2)).text
                                      = sliceL text fe.1 fe.2 :=
                                    (ihMk name pat _).1
                                  have hBLen : (sliceL text
                                      (walkTo fe.1 acc (item :: rest) pos).2.2
                                      fe.1).length
                                      = fe.1 -
                                        (walkTo fe.1 acc (item :: rest) pos).2.2 :=
                                    sliceL_length text _ fe.1 hw3 (by omega)
                                  have hPosW : (walkTo fe.1 acc (item :: rest)
                                      pos).2.2 + (sliceL text
                                      (walkTo fe.1 acc (item :: rest) pos).2.2
                                      fe.1).length = fe.1 := by
                                    rw [hBLen]
                                    omega
                                  have hAfterT : itemsText
                                      (if (sliceL text fe.2
                                          (spanTake fe.2 (cur :: rest2)
                                            (walkTo fe.1 acc (item :: rest)
                                              pos).2.2).2.2).isEmpty
                                       then (spanTake fe.2 (cur :: rest2)
                                          (walkTo fe.1 acc (item :: rest)
                                            pos).2.2).2.1
                                       else .plain (sliceL text fe.2
                                          (spanTake fe.2 (cur :: rest2)
                                            (walkTo fe.1 acc (item :: rest)
                                              pos).2.2).2.2) ::
                                          (spanTake fe.2 (cur :: rest2)
                                            (walkTo fe.1 acc (item :: rest)
                                              pos).2.2).2.1)
                                      = text.drop fe.2 := by
                                    have hcomp : sliceL text fe.2
                                        (spanTake fe.2 (cur :: rest2)
                                          (walkTo fe.1 acc (item :: rest)
                                            pos).2.2).2.2 ++
                                        text.drop ((spanTake fe.2 (cur :: rest2)
                                          (walkTo fe.1 acc (item :: rest)
                                            pos).2.2).2.2)
                                        = text.drop fe.2 :=
                                      sliceL_append_drop text fe.2 _ hf2sp
                                    by_cases hae : (sliceL text fe.2
                                        (spanTake fe.2 (cur :: rest2)
                                          (walkTo fe.1 acc (item :: rest)
                                            pos).2.2).2.2).isEmpty
                                    · rw [if_pos hae]
                                      rw [List.isEmpty_iff.mp hae,
                                        List.nil_append] at hcomp
                                      rw [hs1, hcomp]
                                    · rw [if_neg hae, itemsText_cons, hs1]
                                      exact hcomp
                                  have hItemsWT : itemsText
                                      (mkTok f name pat (sliceL text fe.1 fe.2) ::
                                       (if (sliceL text fe.2
                                          (spanTake fe.2 (cur :: rest2)
                                            (walkTo fe.1 acc (item :: rest)
                                              pos).2.2).2.2).isEmpty
                                        then (spanTake fe.2 (cur :: rest2)
                                          (walkTo fe.1 acc (item :: rest)
                                            pos).2.2).2.1
                                        else .plain (sliceL text fe.2
                                          (spanTake fe.2 (cur :: rest2)
                                            (walkTo fe.1 acc (item :: rest)
                                              pos).2.2).2.2) ::
                                          (spanTake fe.2 (cur :: rest2)
                                            (walkTo fe.1 acc (item :: rest)
                                              pos).2.2).2.1))
                                      = text.drop ((walkTo fe.1 acc (item :: rest)
                                          pos).2.2 + (sliceL text
                                          (walkTo fe.1 acc (item :: rest) pos).2.2
                                          fe.1).length) := by
                                    rw [hPosW, itemsText_cons, hWT, hAfterT]
                                    exact sliceL_append_drop text fe.1 fe.2 hff
                                  have hItemsWC : ∀ t ∈
                                      (mkTok f name pat (sliceL text fe.1 fe.2) ::
                                       (if (sliceL text fe.2
                                          (spanTake fe.2 (cur :: rest2)
                                            (walkTo fe.1 acc (item :: rest)
                                              pos).2.2).2.2).isEmpty
                                        then (spanTake fe.2 (cur :: rest2)
                                          (walkTo fe.1 acc (item :: rest)
                                            pos).2.2).2.1
                                        else .plain (sliceL text fe.2
                                          (spanTake fe.2 (cur :: rest2)
                                            (walkTo fe.1 acc (item :: rest)
                                              pos).2.2).2.2) ::
                                          (spanTake fe.2 (cur :: rest2)
                                            (walkTo fe.1 acc (item :: rest)
                                              pos).2.2).2.1)),
                                      Coh t := by
                                    intro t ht
                                    rcases List.mem_cons.mp ht with h | h
                                    · exact h ▸ (ihMk name pat _).2
                                    · by_cases hae : (sliceL text fe.2
                                          (spanTake fe.2 (cur :: rest2)
                                            (walkTo fe.1 acc (item :: rest)
                                              pos).2.2).2.2).isEmpty
                                      · rw [if_pos hae] at h
                                        exact hCRC t (hsm2 t h)
                                      · rw [if_neg hae] at h
                                        rcases List.mem_cons.mp h with h2 | h2
                                        · exact h2 ▸ Coh.plain _
                                        · exact hCRC t (hsm2 t h2)
                                  have hAcc2C : ∀ t ∈
                                      (if (sliceL text
                                          (walkTo fe.1 acc (item :: rest)
                                            pos).2.2 fe.1).isEmpty
                                       then (walkTo fe.1 acc (item :: rest) pos).1
                                       else .plain (sliceL text
                                          (walkTo fe.1 acc (item :: rest)
                                            pos).2.2 fe.1) ::
                                          (walkTo fe.1 acc (item :: rest) pos).1),
                                      Coh t := by
                                    intro t ht
                                    by_cases hbe : (sliceL text
                                        (walkTo fe.1 acc (item :: rest)
                                          pos).2.2 fe.1).isEmpty
                                    · rw [if_pos hbe] at ht
                                      exact hWAccC t ht
                                    · rw [if_neg hbe] at ht
                                      rcases List.mem_cons.mp ht with h | h
                                      · exact h ▸ Coh.plain _
                                      · exact hWAccC t h
                                  have hAcc2T : itemsText
                                      (if (sliceL text
                                          (walkTo fe.1 acc (item :: rest)
                                            pos).2.2 fe.1).isEmpty
                                       then (walkTo fe.1 acc (item :: rest) pos).1
                                       else .plain (sliceL text
                                          (walkTo fe.1 acc (item :: rest)
                                            pos).2.2 fe.1) ::
                                          (walkTo fe.1 acc (item :: rest)
                                            pos).1).reverse
                                      = itemsText (walkTo fe.1 acc (item :: rest)
                                          pos).1.reverse ++
                                        sliceL text (walkTo fe.1 acc
                                          (item :: rest) pos).2.2 fe.1 := by
                                    by_cases hbe : (sliceL text
                                        (walkTo fe.1 acc (item :: rest)
                                          pos).2.2 fe.1).isEmpty
                                    · rw [if_pos hbe, List.isEmpty_iff.mp hbe,
                                        List.append_nil]
                                    · rw [if_neg hbe, itemsText_reverse_cons]
                                      rfl
                                  have hChain : itemsText
                                      (if (sliceL text
                                          (walkTo fe.1 acc (item :: rest)
                                            pos).2.2 fe.1).isEmpty
                                       then (walkTo fe.1 acc (item :: rest) pos).1
                                       else .plain (sliceL text
                                          (walkTo fe.1 acc (item :: rest)
                                            pos).2.2 fe.1) ::
                                          (walkTo fe.1 acc (item :: rest)
                                            pos).1).reverse ++
                                      text.drop ((walkTo fe.1 acc (item :: rest)
                                          pos).2.2 +
                                        (sliceL text (walkTo fe.1 acc
                                          (item :: rest) pos).2.2 fe.1).length)
                                      = itemsText acc.reverse ++
                                        text.drop pos := by
                                    rw [hAcc2T, hPosW, List.append_assoc,
                                      sliceL_append_drop text
                                        (walkTo fe.1 acc (item :: rest) pos).2.2
                                        fe.1 hw3]
                                    exact hw4
                                  by_cases hrc : 1 <
                                      (spanTake fe.2 (cur :: rest2)
                                        (walkTo fe.1 acc (item :: rest)
                                          pos).2.2).1.length
                                  · rw [if_pos hrc]
                                    obtain ⟨hSubT, hSubC⟩ := ihMg text g fs 0 0
                                      _ _
                                      (pre + (if (sliceL text
                                          (walkTo fe.1 acc (item :: rest)
                                            pos).2.2 fe.1).isEmpty
                                        then (walkTo fe.1 acc (item :: rest)
                                          pos).1
                                        else .plain (sliceL text
                                          (walkTo fe.1 acc (item :: rest)
                                            pos).2.2 fe.1) ::
                                          (walkTo fe.1 acc (item :: rest)
                                            pos).1).length)
                                      (some (name, j,
                                        (walkTo fe.1 acc (item :: rest)
                                          pos).2.2 +
                                        (sliceL text
                                          (walkTo fe.1 acc (item :: rest)
                                            pos).2.2
                                          (spanTake fe.2 (cur :: rest2)
                                            (walkTo fe.1 acc (item :: rest)
                                              pos).2.2).2.2).length))
                                      hItemsWT hItemsWC
                                    refine ⟨(ihRn text g _ ci j name pat _ _ _
                                        pre _ hSubT hSubC hAcc2C).1.trans hChain,
                                      (ihRn text g _ ci j name pat _ _ _
                                        pre _ hSubT hSubC hAcc2C).2⟩
                                  · rw [if_neg hrc]
                                    refine ⟨(ihRn text g fs ci j name pat _ _ _
                                        pre _ hItemsWT hItemsWC hAcc2C).1.trans
                                        hChain,
                                      (ihRn text g fs ci j name pat _ _ _
                                        pre _ hItemsWT hItemsWC hAcc2C).2⟩
      · intro name pat ms
        unfold mkTok
        cases pat.inside with
        | none => exact ⟨rfl, Coh.simple name ms⟩
        | some ig =>
            dsimp only
            have hSeed : itemsText [Tok.plain ms] = List.drop 0 ms := by
              rw [itemsText_cons,
                show itemsText ([] : List Tok) = [] from rfl,
                List.append_nil, List.drop_zero]
              rfl
            have hSeedC : ∀ t ∈ [Tok.plain ms], Coh t := by
              intro t ht
              rcases List.mem_cons.mp ht with h | h
              · exact h ▸ Coh.plain ms
              · exact absurd h (List.not_mem_nil t)
            obtain ⟨hT2, hC2⟩ := ihMg ms (liftSimple ig)
              (zeroFlags (liftSimple ig)) 0 0 [.plain ms] 0 0 none hSeed hSeedC
            exact ⟨rfl, Coh.nested name _ ms hC2
              (hT2.trans (List.drop_zero ms))⟩

/-- Concatenation preservation for any registered grammar object: the
engine's node texts always reassemble to the suffix they replaced. -/
theorem tokenize_concat (g : GrammarObj) (s : String) :
    contentConcat (tokenizeToks g s) = s.data := by
  have hSeed : itemsText [Tok.plain s.data] = List.drop 0 s.data := by
    rw [itemsText_cons, show itemsText ([] : List Tok) = [] from rfl,
      List.append_nil, List.drop_zero]
    rfl
  have hSeedC : ∀ t ∈ [Tok.plain s.data], Coh t := by
    intro t ht
    rcases List.mem_cons.mp ht with h | h
    · exact h ▸ Coh.plain s.data
    · exact absurd h (List.not_mem_nil t)
  obtain ⟨hT, hC⟩ := (engine_concat (bigFuel s)).1 s.data g.core g.flags 0 0
    [.plain s.data] 0 0 none hSeed hSeedC
  rw [show tokenizeToks g s
      = (mgAux (bigFuel s) s.data g.core g.flags 0 0 [.plain s.data] 0 0
          none).items from rfl,
    contentConcat_eq_itemsText _ hC, hT, List.drop_zero]

/-- C9: tokenization preserves the input text: for every input string,
concatenating the contents of the produced tokens (classified tokens,
recursively through nested tokens, and plain-text segments) in output order
yields exactly the original input, for the RAC grammar, the Catala grammar
of the prism-catala package, and the Catala grammar the prism-rac package
registers. -/
theorem c9_tokenize_preserves_input :
    (∀ s : String,
      contentConcat (tokenizeToks PrismRac.racGrammarObj s) = s.data) ∧
    (∀ s : String,
      contentConcat (tokenizeToks PrismCatala.catalaGrammarObj s) = s.data) ∧
    (∀ s : String,
      contentConcat (tokenizeToks PrismRac.catalaGrammarObj s) = s.data) :=
  ⟨fun s => tokenize_concat PrismRac.racGrammarObj s,
    fun s => tokenize_concat PrismCatala.catalaGrammarObj s,
    fun s => tokenize_concat PrismRac.catalaGrammarObj s⟩
